import Mathlib

/-!
Verification of the alignment and parallel-segmentation core of the
readrepeat worker (`src/worker/align.py` and `src/worker/segment.py`).

The Python code is shallowly embedded: strings are `String`/`List Char`,
Python floats are modelled as `ℚ` (the algorithms only add, divide and
compare scores, so exact rational arithmetic models the intent of the
float code), Python `int(x)` on a nonnegative value is integer truncation,
and a Python function that can raise is modelled with `Option` (`none` is
the raising outcome).  Character classes (`\w`, `\s`, `str.lower`,
`str.isalpha`, `str.islower`) are modelled on their ASCII behaviour.
-/

namespace ReadRepeat

/-- Python's `\s` class (ASCII): space, tab, newline, CR, vertical tab, form feed. -/
def isSpaceChar (c : Char) : Bool :=
  c == ' ' || c == '\t' || c == '\n' || c == '\r' || c == '\x0b' || c == '\x0c'

/-- Python's `\w` class (ASCII): alphanumeric or underscore. -/
def isWordChar (c : Char) : Bool :=
  c.isAlphanum || c == '_'

/-- `str.strip()`: drop whitespace from both ends. -/
def pyStrip (l : List Char) : List Char :=
  ((l.dropWhile isSpaceChar).reverse.dropWhile isSpaceChar).reverse

/-- `re.sub(r'\s+', ' ', ·)`: replace each maximal whitespace run by one
space (the flag records whether the previous character was whitespace, so a
run emits a single space at its first character). -/
def collapseWSAux : Bool → List Char → List Char
  | _, [] => []
  | prevSpace, c :: rest =>
    if isSpaceChar c then
      if prevSpace then collapseWSAux true rest
      else ' ' :: collapseWSAux true rest
    else c :: collapseWSAux false rest

def collapseWS (l : List Char) : List Char :=
  collapseWSAux false l

/-- `re.sub(r'\n+', ' ', ·)`: replace each maximal newline run by one space. -/
def nlToSpaceAux : Bool → List Char → List Char
  | _, [] => []
  | prevNl, c :: rest =>
    if c = '\n' then
      if prevNl then nlToSpaceAux true rest
      else ' ' :: nlToSpaceAux true rest
    else c :: nlToSpaceAux false rest

def nlToSpace (l : List Char) : List Char :=
  nlToSpaceAux false l

/-- `str.split()` with no separator: split on whitespace runs, dropping
empties (`cur` accumulates the current word, reversed). -/
def splitWSAux : List Char → List Char → List (List Char)
  | cur, [] => if cur = [] then [] else [cur.reverse]
  | cur, c :: rest =>
    if isSpaceChar c then
      if cur = [] then splitWSAux [] rest
      else cur.reverse :: splitWSAux [] rest
    else splitWSAux (c :: cur) rest

def splitWS (l : List Char) : List (List Char) :=
  splitWSAux [] l

/-- `str.split(sep)` for a one-character separator: keeps empty pieces
(`"".split('\n') == ['']`). -/
def splitOnChar (sep : Char) : List Char → List (List Char)
  | [] => [[]]
  | d :: rest =>
    if d = sep then [] :: splitOnChar sep rest
    else
      match splitOnChar sep rest with
      | [] => [[d]]
      | p :: ps => (d :: p) :: ps

/-! ## `align.py` -/

/-- `normalize_for_comparison` (align.py:13-18): lowercase, delete
characters outside `\w`/`\s`, collapse whitespace, strip. -/
def normalize_for_comparison (text : String) : String :=
  let low := text.data.map Char.toLower
  let kept := low.filter (fun c => isWordChar c || isSpaceChar c)
  ⟨pyStrip (collapseWS kept)⟩

/-- Unit-cost edit distance, the semantics of `Levenshtein.distance`.
`levCons x f` is the distance function of `x :: xs` given `f`, the distance
function of `xs`; this staging keeps the recursion structural so the kernel
can evaluate it, while the standard three-way recurrence holds
definitionally (`levenshtein_cons_cons`). -/
def levCons (x : Char) (fxs : List Char → ℕ) : List Char → ℕ
  | [] => fxs [] + 1
  | y :: ys =>
    min (fxs ys + (if x = y then 0 else 1))
      (min (levCons x fxs ys + 1) (fxs (y :: ys) + 1))

def levenshtein : List Char → List Char → ℕ
  | [], ys => ys.length
  | x :: xs, ys => levCons x (levenshtein xs) ys

/-- `word_similarity` (align.py:21-37). -/
def word_similarity (word1 word2 : String) : ℚ :=
  let w1 := normalize_for_comparison word1
  let w2 := normalize_for_comparison word2
  if w1 = "" ∨ w2 = "" then 0
  else
    let max_len := max w1.length w2.length
    if max_len = 0 then 1
    else 1 - (levenshtein w1.data w2.data : ℚ) / (max_len : ℚ)

/-- `tokenize_for_alignment` (align.py:40-46): lowercase, replace characters
outside `\w`/`\s`/apostrophe by a space, collapse, strip, split into words. -/
def tokenize_for_alignment (text : String) : List String :=
  let low := text.data.map Char.toLower
  let spaced := low.map (fun c => if isWordChar c || isSpaceChar c || c == '\'' then c else ' ')
  let collapsed := pyStrip (collapseWS spaced)
  ((splitWS collapsed).map String.mk).filter (fun w => w ≠ "")

/-- One transcript word as the ASR collaborator supplies it: surface form
plus start/end times in seconds. -/
structure TranscriptWord where
  word : String
  start : ℚ
  stop : ℚ
deriving DecidableEq

/-- One output timing record of `align_transcript_to_text`. -/
structure Timing where
  start_ms : ℤ
  end_ms : ℤ
  confidence : ℚ
deriving DecidableEq

/-- `int(x)` for the nonnegative times of this pipeline: truncation toward zero. -/
def pyInt (q : ℚ) : ℤ :=
  Int.tdiv q.num q.den

/-- Result record of `find_best_window`; the Python dict stores `start_idx`
and `end_idx` which are always both `None` or both set, modelled here as one
`Option (ℕ × ℕ)`. -/
structure WindowResult where
  widx : Option (ℕ × ℕ)
  start_ms : ℤ
  end_ms : ℤ
  confidence : ℚ
deriving DecidableEq

/-- The inner loop of `calculate_alignment_score` (align.py:200-210): over the
enumerated window tokens, skipping used indices, track the best similarity
(starting from 0.0) and its first maximizing token (Python keeps index -1
until a positive similarity is seen; `none` models that sentinel). -/
def bestUnused (sw : String) (trans_words : List String) (used : List ℕ) :
    ℚ × Option (ℕ × String) :=
  trans_words.enum.foldl
    (fun acc p =>
      if p.1 ∈ used then acc
      else if word_similarity sw p.2 > acc.1 then (word_similarity sw p.2, some p) else acc)
    (0, none)

/-- The per-sentence-token body of `calculate_alignment_score`'s outer loop
(align.py:199-215): state is (total_sim, matched, used). -/
def greedyStep (trans_words : List String) (st : ℚ × ℕ × List ℕ) (sw : String) :
    ℚ × ℕ × List ℕ :=
  let bb := bestUnused sw trans_words st.2.2
  match bb.2 with
  | some p => if bb.1 > 1/2 then (st.1 + bb.1, st.2.1 + 1, st.2.2 ++ [p.1]) else st
  | none => st

/-- `calculate_alignment_score` (align.py:181-228). -/
def calculate_alignment_score (sent_words trans_words : List String) : ℚ :=
  if sent_words = [] ∨ trans_words = [] then 0
  else
    let n : ℚ := sent_words.length
    let final := sent_words.foldl (greedyStep trans_words) (0, 0, [])
    let coverage : ℚ := (final.2.1 : ℚ) / n
    let avg_sim : ℚ := final.1 / n
    let size_ratio : ℚ := (trans_words.length : ℚ) / n
    let size_penalty : ℚ := if 1/2 ≤ size_ratio ∧ size_ratio ≤ 2 then 1 else 4/5
    (coverage * (1/2) + avg_sim * (1/2)) * size_penalty

/-- Candidate start positions of `find_best_window` (align.py:149-152):
`range(start_from, min(start_from + n_sent + 5, search_end))` with
`search_end = min(start_from + n_sent * 3 + 10, n_trans)`. -/
def candidateStarts (start_from n_sent n_trans : ℕ) : List ℕ :=
  let search_end := min (start_from + n_sent * 3 + 10) n_trans
  List.range' start_from (min (start_from + n_sent + 5) search_end - start_from)

/-- Candidate window sizes for one start (align.py:154-158):
`range(max(1, n_sent - 2), n_sent * 2 + 3)`, cut off by the inner-loop
`break` as soon as `end_pos >= n_trans` (the bound is monotone in the size,
so the `break` keeps exactly the sizes whose end index is in range). -/
def windowSizes (n_sent start_pos n_trans : ℕ) : List ℕ :=
  (List.range' (max 1 (n_sent - 2)) (n_sent * 2 + 3 - max 1 (n_sent - 2))).takeWhile
    (fun w => start_pos + w - 1 < n_trans)

/-- The (start, end) pairs the two nested loops of `find_best_window` visit,
in visiting order (ascending start, then ascending size). -/
def candidatePairs (n_sent start_from n_trans : ℕ) : List (ℕ × ℕ) :=
  (candidateStarts start_from n_sent n_trans).flatMap
    (fun s => (windowSizes n_sent s n_trans).map (fun w => (s, s + w - 1)))

/-- `trans_words[start_pos:end_pos + 1]`. -/
def windowSlice (trans_words : List String) (s e : ℕ) : List String :=
  (trans_words.drop s).take (e + 1 - s)

/-- The score `find_best_window` gives a candidate window. -/
def windowScoreAt (sent_words trans_words : List String) (c : ℕ × ℕ) : ℚ :=
  calculate_alignment_score sent_words (windowSlice trans_words c.1 c.2)

/-- `find_best_window` (align.py:120-178).  The two nested loops are the
single fold over `candidatePairs` (visit order preserved; the `break` is in
`windowSizes`); the running best starts at score -1 with no window, exactly
as `best_score = -1; best_start = None`. -/
def find_best_window (sent_words trans_words : List String)
    (transcript_words : List TranscriptWord) (start_from : ℕ) : WindowResult :=
  let n_trans := trans_words.length
  if start_from ≥ n_trans then ⟨none, 0, 0, 0⟩
  else
    let r := (candidatePairs sent_words.length start_from n_trans).foldl
      (fun (acc : ℚ × Option (ℕ × ℕ)) c =>
        if windowScoreAt sent_words trans_words c > acc.1
        then (windowScoreAt sent_words trans_words c, some c) else acc)
      (-1, none)
    match r.2 with
    | none => ⟨none, 0, 0, 0⟩
    | some (s, e) =>
      if r.1 < 3/10 then ⟨none, 0, 0, 0⟩
      else
        ⟨some (s, e),
          pyInt ((transcript_words.getD s ⟨"", 0, 0⟩).start * 1000),
          pyInt ((transcript_words.getD e ⟨"", 0, 0⟩).stop * 1000),
          r.1⟩

/-- One per-sentence record of the alignment loop, instrumented with the
matched window indices (`none` for the FAILED and empty-sentence cases). -/
structure SentAlign where
  start_ms : ℤ
  end_ms : ℤ
  confidence : ℚ
  widx : Option (ℕ × ℕ)
deriving DecidableEq

/-- The `for sent_idx, sent_words in enumerate(...)` loop of
`align_transcript_to_text` (align.py:87-115): `cur` is `current_trans_idx`
and `prevEnd` is `timings[-1]['end_ms']` (0 while `timings` is empty). -/
def alignLoop (trans_words : List String) (transcript_words : List TranscriptWord) :
    List (List String) → ℕ → ℤ → List SentAlign
  | [], _, _ => []
  | sw :: rest, cur, prevEnd =>
    if sw = [] then
      ⟨0, 0, 0, none⟩ :: alignLoop trans_words transcript_words rest cur 0
    else
      let r := find_best_window sw trans_words transcript_words cur
      match r.widx with
      | some (s, e) =>
        ⟨r.start_ms, r.end_ms, r.confidence, some (s, e)⟩ ::
          alignLoop trans_words transcript_words rest (e + 1) r.end_ms
      | none =>
        ⟨prevEnd, prevEnd, 0, none⟩ ::
          alignLoop trans_words transcript_words rest cur prevEnd

/-- `align_transcript_to_text` (align.py:49-117), instrumented with window
indices. -/
def align_full (sentences : List String) (transcript_words : List TranscriptWord) :
    List SentAlign :=
  if transcript_words = [] then sentences.map (fun _ => ⟨0, 0, 0, none⟩)
  else if sentences = [] then []
  else
    let sentence_word_lists := sentences.map tokenize_for_alignment
    let trans_words := transcript_words.map (·.word)
    alignLoop trans_words transcript_words sentence_word_lists 0 0

/-- `align_transcript_to_text` (align.py:49-117): the timing records the
Python function returns. -/
def align_transcript_to_text (sentences : List String)
    (transcript_words : List TranscriptWord) : List Timing :=
  (align_full sentences transcript_words).map (fun a => ⟨a.start_ms, a.end_ms, a.confidence⟩)

/-- The §3 precondition on transcript input: `start ≤ end` for every word,
and words ordered by non-decreasing start time. -/
def transcriptValid (tws : List TranscriptWord) : Prop :=
  (∀ w ∈ tws, w.start ≤ w.stop) ∧ tws.Chain' (fun a b => a.start ≤ b.start)

/-! ## Reference definitions written from the spec's words

These re-state §4.5/§4.6 (and claim C4's wording) directly, to be compared
with the embedded code. -/

/-- First element whose value under `g` is maximal: the spec's "track the
maximum, breaking ties by first encountered". -/
def firstArgmax {α : Type} (g : α → ℚ) (l : List α) : Option α :=
  l.find? (fun c => decide (∀ x ∈ l, g x ≤ g c))

/-- `searchBound = min(rangeStart + 3n + 10, M)` (§4.5). -/
def specSearchBound (rangeStart n M : ℕ) : ℕ :=
  min (rangeStart + 3 * n + 10) M

/-- Candidate starts as claim C4 words them:
`rangeStart .. min(rangeStart + n + 4, searchBound) - 1`. -/
def claimStartsC4 (rangeStart n M : ℕ) : List ℕ :=
  List.range' rangeStart (min (rangeStart + n + 4) (specSearchBound rangeStart n M) - rangeStart)

/-- Candidate starts as amended:
`rangeStart .. min(rangeStart + n + 5, searchBound) - 1`. -/
def amendedStartsC4 (rangeStart n M : ℕ) : List ℕ :=
  List.range' rangeStart (min (rangeStart + n + 5) (specSearchBound rangeStart n M) - rangeStart)

/-- Candidate window lengths per §4.5: `max(1, n-2) .. 2n+2` inclusive,
keeping those whose end index stays below `M`. -/
def specSizes (n s M : ℕ) : List ℕ :=
  (List.range' (max 1 (n - 2)) (2 * n + 3 - max 1 (n - 2))).filter (fun w => s + w - 1 < M)

/-- The §4.5 window search over a given candidate-start list: enumerate
(start, length) pairs ascending-start-then-ascending-length, take the first
window of maximal score, fail below 0.3. -/
def bestWindowOfStarts (starts : List ℕ) (sent_words trans_words : List String)
    (transcript_words : List TranscriptWord) : WindowResult :=
  let n := sent_words.length
  let M := trans_words.length
  let cands := starts.flatMap (fun s => (specSizes n s M).map (fun w => (s, s + w - 1)))
  match firstArgmax (windowScoreAt sent_words trans_words) cands with
  | none => ⟨none, 0, 0, 0⟩
  | some (s, e) =>
    if windowScoreAt sent_words trans_words (s, e) < 3/10 then ⟨none, 0, 0, 0⟩
    else
      ⟨some (s, e),
        pyInt ((transcript_words.getD s ⟨"", 0, 0⟩).start * 1000),
        pyInt ((transcript_words.getD e ⟨"", 0, 0⟩).stop * 1000),
        windowScoreAt sent_words trans_words (s, e)⟩

/-- The window search exactly as claim C4 words it (start bound `n + 4`). -/
def bestWindowClaimC4 (sent_words trans_words : List String)
    (transcript_words : List TranscriptWord) (rangeStart : ℕ) : WindowResult :=
  if rangeStart ≥ trans_words.length then ⟨none, 0, 0, 0⟩
  else
    bestWindowOfStarts (claimStartsC4 rangeStart sent_words.length trans_words.length)
      sent_words trans_words transcript_words

/-- The window search as amended (start bound `n + 5`). -/
def bestWindowAmendedC4 (sent_words trans_words : List String)
    (transcript_words : List TranscriptWord) (rangeStart : ℕ) : WindowResult :=
  if rangeStart ≥ trans_words.length then ⟨none, 0, 0, 0⟩
  else
    bestWindowOfStarts (amendedStartsC4 rangeStart sent_words.length trans_words.length)
      sent_words trans_words transcript_words

/-- The greedy pick as §4.6 words it: among the not-yet-used window tokens,
the first one maximizing similarity, together with that similarity. -/
def greedyPickSpec (sw : String) (window : List String) (used : List ℕ) : Option (ℕ × ℚ) :=
  let avail := window.enum.filter (fun p => decide (p.1 ∉ used))
  (firstArgmax (fun p => word_similarity sw p.2) avail).map
    (fun p => (p.1, word_similarity sw p.2))

/-- The per-token step of §4.6's greedy matching. -/
def specGreedyStep (window : List String) (st : ℚ × ℕ × List ℕ) (sw : String) :
    ℚ × ℕ × List ℕ :=
  match greedyPickSpec sw window st.2.2 with
  | some (i, sim) => if sim > 1/2 then (st.1 + sim, st.2.1 + 1, st.2.2 ++ [i]) else st
  | none => st

/-- `windowScore` as §4.6 words it. -/
def windowScoreSpec (sent_words window : List String) : ℚ :=
  if sent_words = [] ∨ window = [] then 0
  else
    let n : ℚ := sent_words.length
    let st := sent_words.foldl (specGreedyStep window) (0, 0, [])
    let coverage : ℚ := (st.2.1 : ℚ) / n
    let avgSimilarity : ℚ := st.1 / n
    let sizeRatio : ℚ := (window.length : ℚ) / n
    let sizePenalty : ℚ := if 1/2 ≤ sizeRatio ∧ sizeRatio ≤ 2 then 1 else 4/5
    (1/2 * coverage + 1/2 * avgSimilarity) * sizePenalty

/-! ## `segment.py` -/

/-- `SENTENCE_ENDINGS` (segment.py:10-19): the terminator character class
selected by `SENTENCE_ENDINGS.get(lang, SENTENCE_ENDINGS['default'])`. -/
def sentenceEndings (lang : String) : List Char :=
  if lang = "en" then ['.', '!', '?']
  else if lang = "zh" then ['。', '！', '？']
  else if lang = "ja" then ['。', '！', '？']
  else if lang = "ko" then ['。', '！', '？', '.', '!', '?']
  else if lang = "es" then ['.', '!', '?', '¡', '¿']
  else if lang = "fr" then ['.', '!', '?']
  else if lang = "de" then ['.', '!', '?']
  else ['.', '!', '?', '。', '！', '？']

/-- `ABBREVIATIONS.get(lang, ABBREVIATIONS['default'])` (segment.py:22-25). -/
def abbreviations (lang : String) : List String :=
  if lang = "en" then
    ["mr", "mrs", "ms", "dr", "prof", "sr", "jr", "vs", "etc", "e.g", "i.e", "no", "vol"]
  else []

/-- `re.split(f'({pattern})', text)` for `pattern` a `[class]+` character
class: the parts alternate text / terminator-run, starting and ending with a
(possibly empty) text part; each terminator part is a maximal nonempty run
(the head of `dropWhile (¬ isTerm ·)` is a terminator, so the run is that
head plus `takeWhile isTerm` of the tail). -/
def pySplitKeep (isTerm : Char → Bool) (l : List Char) : List (List Char) :=
  let t := l.takeWhile (fun c => ¬ isTerm c)
  match h : l.dropWhile (fun c => ¬ isTerm c) with
  | [] => [t]
  | c :: cs =>
    t :: (c :: cs.takeWhile isTerm) :: pySplitKeep isTerm (cs.dropWhile isTerm)
termination_by l.length
decreasing_by
  have h1 : (c :: cs).length ≤ l.length := h ▸ (List.dropWhile_sublist _).length_le
  have h2 : (cs.dropWhile isTerm).length ≤ cs.length := (List.dropWhile_sublist _).length_le
  simp at h1
  omega

/-- `str.rstrip('.!?')` (segment.py:112). -/
def pyRStripTerm (l : List Char) : List Char :=
  (l.reverse.dropWhile (fun c => c == '.' || c == '!' || c == '?')).reverse

/-- `_segment_cjk`'s accumulation loop (segment.py:62-81): `current` gathers
parts; a part matching the terminator pattern finalizes the current sentence
(when nonblank) and resets the accumulator. -/
def cjkLoop (isTerm : Char → Bool) : List (List Char) → List Char → List (List Char)
  | [], current => if pyStrip current = [] then [] else [pyStrip current]
  | p :: rest, current =>
    match p with
    | [] => cjkLoop isTerm rest current
    | c :: _ =>
      let cur := current ++ p
      if isTerm c then
        if pyStrip cur = [] then cjkLoop isTerm rest []
        else pyStrip cur :: cjkLoop isTerm rest []
      else cjkLoop isTerm rest cur

/-- `_segment_western`'s loop (segment.py:90-132).  `re.match(pattern, part)`
holds exactly when the part starts with a terminator character; the
abbreviation test rstrips `'.!?'` from the last lowercased word and checks
the abbreviation list or a single alphabetic character; the continuation
test looks at the first character of the stripped next part. -/
def westLoop (isTerm : Char → Bool) (abbrevs : List String) :
    List (List Char) → List Char → List (List Char)
  | [], current => if pyStrip current = [] then [] else [pyStrip current]
  | p :: rest, current =>
    match p with
    | [] => westLoop isTerm abbrevs rest current
    | c :: _ =>
      if isTerm c then
        let cur := current ++ p
        let words := splitWS (cur.map Char.toLower)
        let is_abbrev : Bool :=
          match words.getLast? with
          | some w =>
            let last_word := pyRStripTerm w
            abbrevs.contains (String.mk last_word) ||
              (last_word.length == 1 && last_word.all Char.isAlpha)
          | none => false
        let next_starts_lower : Bool :=
          match pyStrip (rest.headD []) with
          | [] => false
          | d :: _ => d.isLower
        if !is_abbrev && !next_starts_lower && !(pyStrip cur).isEmpty then
          pyStrip cur :: westLoop isTerm abbrevs rest []
        else westLoop isTerm abbrevs rest cur
      else westLoop isTerm abbrevs rest (current ++ p)

/-- `segment_text` (segment.py:28-54). -/
def segment_text (text : String) (lang : String) : List String :=
  let t := collapseWS (pyStrip (nlToSpace text.data))
  if t = [] then []
  else
    let isTerm := fun c => (sentenceEndings lang).contains c
    let parts := pySplitKeep isTerm t
    if lang = "zh" ∨ lang = "ja" then (cjkLoop isTerm parts []).map String.mk
    else (westLoop isTerm (abbreviations lang) parts []).map String.mk

/-- `merge_short_sentences` (segment.py:135-165).  The Python loop writes the
merged text into `sentences[i + 1]` before visiting it, so recursively: a
short non-final sentence is prepended onto its successor and processing
continues at the merged successor. -/
def merge_short_sentences (minw : ℕ) : List String → List String
  | [] => []
  | [x] => [x]
  | x :: y :: rest =>
    if (splitWS x.data).length < minw then
      merge_short_sentences minw ((x ++ " " ++ y) :: rest)
    else x :: merge_short_sentences minw (y :: rest)
termination_by l => l.length
decreasing_by all_goals simp +arith

/-- A merge pass never lengthens the list (needed for the termination of the
balancing loop below, mirroring the spec's decreasing remaining-merge
count). -/
theorem merge_short_sentences_length_le (minw : ℕ) (l : List String) :
    (merge_short_sentences minw l).length ≤ l.length := by
  have key : ∀ (n : ℕ) (l : List String), l.length ≤ n →
      (merge_short_sentences minw l).length ≤ l.length := by
    intro n
    induction n with
    | zero =>
      intro l hl
      match l with
      | [] => simp [merge_short_sentences]
    | succ n ih =>
      intro l hl
      match l with
      | [] => simp [merge_short_sentences]
      | [x] => simp [merge_short_sentences]
      | x :: y :: rest =>
        rw [merge_short_sentences]
        split
        · have := ih ((x ++ " " ++ y) :: rest) (by simp at hl ⊢; omega)
          simp at this ⊢
          omega
        · have := ih (y :: rest) (by simp at hl ⊢; omega)
          simp at this ⊢
          omega
  exact key l.length l le_rfl

/-- A merge pass keeps a nonempty list nonempty. -/
theorem merge_short_sentences_ne_nil (minw : ℕ) (l : List String) (hl : l ≠ []) :
    merge_short_sentences minw l ≠ [] := by
  have key : ∀ (n : ℕ) (l : List String), l.length ≤ n → l ≠ [] →
      merge_short_sentences minw l ≠ [] := by
    intro n
    induction n with
    | zero =>
      intro l hl hne
      match l with
      | [] => exact absurd rfl hne
    | succ n ih =>
      intro l hl hne
      match l with
      | [x] => simp [merge_short_sentences]
      | x :: y :: rest =>
        rw [merge_short_sentences]
        split
        · exact ih ((x ++ " " ++ y) :: rest) (by simp at hl ⊢; omega) (by simp)
        · simp
  exact key l.length l le_rfl hl

/-- The balancing-pass loop of `segment_parallel` (segment.py:273-287):
repeat `merge_short_sentences` while this side is strictly longer than the
other and longer than one, breaking when a pass changed nothing (`prev` is
Python's `prev_f_count`/`prev_t_count`, initially -1). -/
def mergePassLoop (minw other_len : ℕ) (f : List String) (prev : ℤ) : List String :=
  if f.length > other_len ∧ f.length > 1 then
    if (f.length : ℤ) = prev then f
    else mergePassLoop minw other_len (merge_short_sentences minw f) (f.length : ℤ)
  else f
termination_by (f.length, if (f.length : ℤ) = prev then 0 else 1)
decreasing_by
  rcases lt_or_eq_of_le (merge_short_sentences_length_le minw f) with h | h
  · exact Prod.Lex.left _ _ h
  · simp only [h]
    have : (if ((f.length : ℤ)) = prev then (0 : ℕ) else 1) = 1 := by
      simp [*]
    rw [this]
    exact Prod.Lex.right _ (by simp)

/-- `sentences[min_idx] += " " + sentences[min_idx + 1]; sentences.pop(min_idx + 1)`
(segment.py:196-198). -/
def mergeAt : List String → ℕ → List String
  | x :: y :: rest, 0 => (x ++ " " ++ y) :: rest
  | x :: rest, i + 1 => x :: mergeAt rest i
  | l, _ => l

/-- The `min_len`/`min_idx` scan of `_force_merge_to_count`
(segment.py:188-194): `none` models `min_len = inf` before any element is
seen, so the first element always takes over; ties keep the earliest. -/
def minIdxStep (acc : Option ℕ × ℕ) (p : ℕ × String) : Option ℕ × ℕ :=
  match acc.1 with
  | none => (some p.2.length, p.1)
  | some m => if p.2.length < m then (some p.2.length, p.1) else acc

/-- First index of minimal character length among `sentences[:-1]`. -/
def shortestIdx (l : List String) : ℕ :=
  (l.dropLast.enum.foldl minIdxStep (none, 0)).2

/-- One iteration of the `while len(sentences) > target` body of
`_force_merge_to_count` (segment.py:187-198); `none` models the IndexError
the body raises when fewer than two sentences remain. -/
def forceMergeStep : List String → Option (List String)
  | [] => none
  | [_] => none
  | x :: y :: rest => some (mergeAt (x :: y :: rest) (shortestIdx (x :: y :: rest)))

theorem minIdxStep_bound (B : ℕ) :
    ∀ (xs : List (ℕ × String)) (acc : Option ℕ × ℕ), acc.2 < B →
      (∀ p ∈ xs, p.1 < B) → (xs.foldl minIdxStep acc).2 < B := by
  intro xs
  induction xs with
  | nil => intro acc h _; simpa using h
  | cons p xs ih =>
    intro acc hacc hall
    simp only [List.foldl_cons]
    apply ih
    · unfold minIdxStep
      rcases acc with ⟨m, i⟩
      match m with
      | none => exact hall p (by simp)
      | some m =>
        simp only []
        split
        · exact hall p (by simp)
        · exact hacc
    · intro q hq
      exact hall q (by simp [hq])

theorem shortestIdx_lt (x y : String) (rest : List String) :
    shortestIdx (x :: y :: rest) + 1 < (x :: y :: rest).length := by
  have hb : ∀ p ∈ (x :: y :: rest).dropLast.enum, p.1 < (x :: y :: rest).dropLast.length := by
    intro p hp
    have := List.fst_lt_of_mem_enum hp
    exact this
  have hlen : (x :: y :: rest).dropLast.length = rest.length + 1 := by
    simp
  have h0 : (0 : ℕ) < (x :: y :: rest).dropLast.length := by omega
  have := minIdxStep_bound ((x :: y :: rest).dropLast.length)
    (x :: y :: rest).dropLast.enum (none, 0) h0 hb
  unfold shortestIdx
  simp only [List.length_cons]
  omega

theorem mergeAt_length :
    ∀ (l : List String) (i : ℕ), i + 1 < l.length → (mergeAt l i).length + 1 = l.length := by
  intro l
  induction l with
  | nil => intro i h; simp at h
  | cons x rest ih =>
    intro i h
    match rest, i with
    | y :: rest', 0 => simp [mergeAt]
    | y :: rest', i + 1 =>
      rw [mergeAt]
      have := ih i (by simp at h ⊢; omega)
      simp at this ⊢
      omega

theorem forceMergeStep_some_length {l l' : List String} (h : forceMergeStep l = some l') :
    l'.length + 1 = l.length := by
  match l with
  | [] => simp [forceMergeStep] at h
  | [_] => simp [forceMergeStep] at h
  | x :: y :: rest =>
    rw [forceMergeStep] at h
    have hlt := shortestIdx_lt x y rest
    have := mergeAt_length (x :: y :: rest) (shortestIdx (x :: y :: rest)) hlt
    simp only [Option.some.injEq] at h
    rw [h] at this
    omega

/-- `_force_merge_to_count` (segment.py:168-200); `none` models the
IndexError, reachable only for a nonempty list with `target = 0` shrunk down
to one sentence (never reached from `segment_parallel`). -/
def force_merge_to_count (l : List String) (target : ℕ) : Option (List String) :=
  if l.length ≤ target then some l
  else
    match h : forceMergeStep l with
    | none => none
    | some l' => force_merge_to_count l' target
termination_by l.length
decreasing_by
  have := forceMergeStep_some_length h
  omega

/-- One iteration of the per-line loop of `segment_parallel`
(segment.py:245-298), threading the two accumulated output lists. -/
def processLinePair (f_lang t_lang : String) (minw : ℕ)
    (acc : List String × List String) (pair : String × String) :
    Option (List String × List String) :=
  let f_line : String := ⟨pyStrip pair.1.data⟩
  let t_line : String := ⟨pyStrip pair.2.data⟩
  if f_line = "" ∧ t_line = "" then some acc
  else if f_line = "" then
    let t_sents := segment_text t_line t_lang
    some (acc.1 ++ t_sents.map (fun _ => ""), acc.2 ++ t_sents)
  else if t_line = "" then
    let f_sents := segment_text f_line f_lang
    some (acc.1 ++ f_sents, acc.2 ++ f_sents.map (fun _ => ""))
  else
    let f0 := segment_text f_line f_lang
    let t0 := segment_text t_line t_lang
    let f1 := mergePassLoop minw t0.length f0 (-1)
    let t1 := mergePassLoop minw f1.length t0 (-1)
    let target0 := min f1.length t1.length
    let target := if target0 = 0 then max f1.length t1.length else target0
    match force_merge_to_count f1 target, force_merge_to_count t1 target with
    | some f2, some t2 => some (acc.1 ++ f2, acc.2 ++ t2)
    | _, _ => none

/-- `segment_parallel` (segment.py:203-300); `none` models an uncaught
exception escaping the per-line loop. -/
def segment_parallel (foreign_text translation_text foreign_lang translation_lang : String)
    (min_words : ℕ) : Option (List String × List String) :=
  let foreign_lines := (splitOnChar '\n' (pyStrip foreign_text.data)).map String.mk
  let trans_lines := (splitOnChar '\n' (pyStrip translation_text.data)).map String.mk
  let max_lines := max foreign_lines.length trans_lines.length
  let fpad := foreign_lines ++ List.replicate (max_lines - foreign_lines.length) ""
  let tpad := trans_lines ++ List.replicate (max_lines - trans_lines.length) ""
  (fpad.zip tpad).foldlM (processLinePair foreign_lang translation_lang min_words) ([], [])

/-! ## Lemmas: the running-maximum fold -/

/-- Characterization of the `best_score`/`best` folds of `find_best_window`
and `calculate_alignment_score`: starting from `(b₀, none)` and updating on a
strict improvement, the fold either never updates (everything is at most
`b₀`), or ends at the first element attaining the maximum. -/
theorem foldArgmax_characterize {α : Type} (g : α → ℚ) (b₀ : ℚ) (l : List α) :
    (l.foldl (fun acc p => if g p > acc.1 then (g p, some p) else acc) (b₀, (none : Option α))
        = (b₀, none) ∧ ∀ x ∈ l, g x ≤ b₀)
    ∨ (∃ c l₁ l₂, l = l₁ ++ c :: l₂
        ∧ l.foldl (fun acc p => if g p > acc.1 then (g p, some p) else acc) (b₀, none)
            = (g c, some c)
        ∧ b₀ < g c ∧ (∀ x ∈ l₁, g x < g c) ∧ (∀ x ∈ l₂, g x ≤ g c)) := by
  induction l using List.reverseRecOn with
  | nil => left; simp
  | append_singleton l a ih =>
    rw [List.foldl_append]
    rcases ih with ⟨heq, hall⟩ | ⟨c, l₁, l₂, hsplit, heq, hb, h₁, h₂⟩
    · rw [heq]
      simp only [List.foldl_cons, List.foldl_nil]
      by_cases hga : g a > b₀
      · right
        refine ⟨a, l, [], by simp, by simp [hga], hga, ?_, by simp⟩
        exact fun x hx => lt_of_le_of_lt (hall x hx) hga
      · left
        refine ⟨by simp [hga], ?_⟩
        intro x hx
        rcases List.mem_append.1 hx with h | h
        · exact hall x h
        · simp only [List.mem_singleton] at h
          subst h
          exact not_lt.1 hga
    · rw [heq]
      simp only [List.foldl_cons, List.foldl_nil]
      by_cases hga : g a > g c
      · right
        refine ⟨a, l₁ ++ c :: l₂, [], by simp [hsplit], by simp [hga],
          lt_trans hb hga, ?_, by simp⟩
        intro x hx
        rcases List.mem_append.1 hx with h | h
        · exact lt_trans (h₁ x h) hga
        · rcases List.mem_cons.1 h with h | h
          · subst h; exact hga
          · exact lt_of_le_of_lt (h₂ x h) hga
      · right
        refine ⟨c, l₁, l₂ ++ [a], by simp [hsplit], by simp [hga], hb, h₁, ?_⟩
        intro x hx
        rcases List.mem_append.1 hx with h | h
        · exact h₂ x h
        · simp only [List.mem_singleton] at h
          subst h
          exact not_lt.1 hga

/-- When a split as in `foldArgmax_characterize` exists, `firstArgmax`
returns exactly that first maximal element. -/
theorem firstArgmax_of_split {α : Type} (g : α → ℚ) {c : α} {l₁ l₂ : List α}
    (h₁ : ∀ x ∈ l₁, g x < g c) (h₂ : ∀ x ∈ l₂, g x ≤ g c) :
    firstArgmax g (l₁ ++ c :: l₂) = some c := by
  unfold firstArgmax
  rw [List.find?_append]
  have hnone : (l₁.find? fun c' => decide (∀ x ∈ l₁ ++ c :: l₂, g x ≤ g c')) = none := by
    rw [List.find?_eq_none]
    intro y hy
    simp only [decide_eq_true_eq, not_forall]
    refine ⟨c, by simp, ?_⟩
    exact not_le.2 (h₁ y hy)
  rw [hnone, Option.none_or]
  rw [List.find?_cons_of_pos]
  simp only [decide_eq_true_eq]
  intro x hx
  rcases List.mem_append.1 hx with h | h
  · exact le_of_lt (h₁ x h)
  · rcases List.mem_cons.1 h with h | h
    · subst h; exact le_rfl
    · exact h₂ x h

/-- Folding with an inline membership skip equals folding the filtered
list (the `if i in used_trans: continue` of align.py:204). -/
theorem foldl_mem_skip {β : Type} (used : List ℕ) (G : β → (ℕ × String) → β) :
    ∀ (l : List (ℕ × String)) (init : β),
      l.foldl (fun acc p => if p.1 ∈ used then acc else G acc p) init
        = ((l.filter fun p => decide (p.1 ∉ used)).foldl G init) := by
  intro l
  induction l with
  | nil => intro init; rfl
  | cons p rest ih =>
    intro init
    by_cases hp : p.1 ∈ used
    · simp [List.filter_cons, hp, ih]
    · simp [List.filter_cons, hp, ih]

/-! ## Lemmas: edit distance and word similarity -/

theorem levenshtein_nil_left (ys : List Char) : levenshtein [] ys = ys.length := rfl

theorem levenshtein_nil_right : ∀ xs : List Char, levenshtein xs [] = xs.length
  | [] => rfl
  | x :: xs => by
    show levCons x (levenshtein xs) [] = _
    rw [levCons, levenshtein_nil_right xs]
    rfl

theorem levenshtein_cons_cons (x y : Char) (xs ys : List Char) :
    levenshtein (x :: xs) (y :: ys)
      = min (levenshtein xs ys + (if x = y then 0 else 1))
          (min (levenshtein (x :: xs) ys + 1) (levenshtein xs (y :: ys) + 1)) := rfl

theorem levenshtein_comm : ∀ a b : List Char, levenshtein a b = levenshtein b a := by
  intro a
  induction a with
  | nil =>
    intro b
    rw [levenshtein_nil_left, levenshtein_nil_right]
  | cons x xs iha =>
    intro b
    induction b with
    | nil => rw [levenshtein_nil_left, levenshtein_nil_right]
    | cons y ys ihb =>
      rw [levenshtein_cons_cons, levenshtein_cons_cons]
      rw [iha ys, iha (y :: ys), ihb]
      have hxy : (if x = y then 0 else 1) = (if y = x then 0 else 1) := by
        by_cases h : x = y
        · subst h; rfl
        · rw [if_neg h, if_neg (fun hyx => h hyx.symm)]
      rw [hxy]
      rw [min_comm (levenshtein ys (x :: xs) + 1) (levenshtein (y :: ys) xs + 1)]

theorem levenshtein_eq_zero_iff : ∀ a b : List Char, levenshtein a b = 0 ↔ a = b := by
  intro a
  induction a with
  | nil =>
    intro b
    cases b with
    | nil => simp [levenshtein_nil_left]
    | cons y ys => simp [levenshtein_nil_left]
  | cons x xs iha =>
    intro b
    cases b with
    | nil => simp [levenshtein_nil_right]
    | cons y ys =>
      rw [levenshtein_cons_cons]
      rw [Nat.min_eq_zero_iff, Nat.min_eq_zero_iff]
      constructor
      · rintro (h | h | h)
        · by_cases hxy : x = y
          · simp only [hxy, if_pos rfl, Nat.add_zero] at h
            simp [hxy, (iha ys).1 h]
          · simp [hxy] at h
        · omega
        · omega
      · intro h
        simp only [List.cons.injEq] at h
        left
        simp [h.1, (iha ys).2 h.2]

theorem levenshtein_le_max : ∀ a b : List Char, levenshtein a b ≤ max a.length b.length := by
  intro a
  induction a with
  | nil =>
    intro b
    rw [levenshtein_nil_left]
    simp
  | cons x xs iha =>
    intro b
    induction b with
    | nil =>
      rw [levenshtein_nil_right]
      simp
    | cons y ys ihb =>
      rw [levenshtein_cons_cons]
      have h1 : levenshtein xs ys + (if x = y then 0 else 1) ≤ max xs.length ys.length + 1 := by
        have := iha ys
        split <;> omega
      calc min (levenshtein xs ys + (if x = y then 0 else 1))
            (min (levenshtein (x :: xs) ys + 1) (levenshtein xs (y :: ys) + 1))
          ≤ levenshtein xs ys + (if x = y then 0 else 1) := min_le_left _ _
        _ ≤ max xs.length ys.length + 1 := h1
        _ ≤ max (x :: xs).length (y :: ys).length := by simp; omega

theorem word_similarity_nonneg (a b : String) : 0 ≤ word_similarity a b := by
  unfold word_similarity
  dsimp only
  split
  · exact le_rfl
  · split
    · norm_num
    · next hml =>
      set w1 := normalize_for_comparison a with hw1
      set w2 := normalize_for_comparison b with hw2
      set m : ℕ := max w1.length w2.length with hm
      have hmp : 0 < m := Nat.pos_of_ne_zero hml
      have hle : levenshtein w1.data w2.data ≤ m := levenshtein_le_max w1.data w2.data
      have hdiv : (levenshtein w1.data w2.data : ℚ) / (m : ℚ) ≤ 1 := by
        rw [div_le_one (by exact_mod_cast hmp)]
        exact_mod_cast hle
      linarith

theorem word_similarity_le_one (a b : String) : word_similarity a b ≤ 1 := by
  unfold word_similarity
  dsimp only
  split
  · norm_num
  · split
    · exact le_rfl
    · next hml =>
      set w1 := normalize_for_comparison a with hw1
      set w2 := normalize_for_comparison b with hw2
      set m : ℕ := max w1.length w2.length with hm
      have hmp : 0 < m := Nat.pos_of_ne_zero hml
      have hnn : (0 : ℚ) ≤ (levenshtein w1.data w2.data : ℚ) / (m : ℚ) := by positivity
      linarith

/-! ## Lemmas: score bounds -/

theorem bestUnused_bounds (sw : String) (trans_words : List String) (used : List ℕ) :
    0 ≤ (bestUnused sw trans_words used).1 ∧ (bestUnused sw trans_words used).1 ≤ 1 := by
  unfold bestUnused
  have key : ∀ (l : List (ℕ × String)) (acc : ℚ × Option (ℕ × String)),
      0 ≤ acc.1 → acc.1 ≤ 1 →
      0 ≤ (l.foldl (fun acc p =>
          if p.1 ∈ used then acc
          else if word_similarity sw p.2 > acc.1 then (word_similarity sw p.2, some p) else acc)
        acc).1
      ∧ (l.foldl (fun acc p =>
          if p.1 ∈ used then acc
          else if word_similarity sw p.2 > acc.1 then (word_similarity sw p.2, some p) else acc)
        acc).1 ≤ 1 := by
    intro l
    induction l with
    | nil => intro acc h0 h1; exact ⟨h0, h1⟩
    | cons p rest ih =>
      intro acc h0 h1
      simp only [List.foldl_cons]
      by_cases hp : p.1 ∈ used
      · rw [if_pos hp]; exact ih acc h0 h1
      · rw [if_neg hp]
        by_cases hs : word_similarity sw p.2 > acc.1
        · rw [if_pos hs]
          exact ih _ (word_similarity_nonneg sw p.2) (word_similarity_le_one sw p.2)
        · rw [if_neg hs]; exact ih acc h0 h1
  exact key _ _ le_rfl (by norm_num)

theorem greedy_fold_bounds (trans_words : List String) (l : List String) :
    ∀ st : ℚ × ℕ × List ℕ, 0 ≤ st.1 → st.1 ≤ (st.2.1 : ℚ) →
      0 ≤ (l.foldl (greedyStep trans_words) st).1
      ∧ (l.foldl (greedyStep trans_words) st).1 ≤ ((l.foldl (greedyStep trans_words) st).2.1 : ℚ)
      ∧ (l.foldl (greedyStep trans_words) st).2.1 ≤ st.2.1 + l.length := by
  induction l with
  | nil => intro st h0 h1; exact ⟨h0, h1, by simp⟩
  | cons sw rest ih =>
    intro st h0 h1
    simp only [List.foldl_cons]
    have key : 0 ≤ (greedyStep trans_words st sw).1 ∧
        (greedyStep trans_words st sw).1 ≤ ((greedyStep trans_words st sw).2.1 : ℚ) ∧
        (greedyStep trans_words st sw).2.1 ≤ st.2.1 + 1 := by
      unfold greedyStep
      rcases hbb : (bestUnused sw trans_words st.2.2).2 with _ | p
      · simp only [hbb]
        exact ⟨h0, h1, by omega⟩
      · simp only [hbb]
        by_cases hgt : (bestUnused sw trans_words st.2.2).1 > 1/2
        · rw [if_pos hgt]
          have hb := bestUnused_bounds sw trans_words st.2.2
          refine ⟨by dsimp only; linarith, ?_, by dsimp only; omega⟩
          dsimp only
          push_cast
          linarith
        · rw [if_neg hgt]
          exact ⟨h0, h1, by omega⟩
    have := ih (greedyStep trans_words st sw) key.1 key.2.1
    refine ⟨this.1, this.2.1, ?_⟩
    have h2 := this.2.2
    have h3 := key.2.2
    simp only [List.length_cons]
    omega

theorem calculate_alignment_score_nonneg (a b : List String) :
    0 ≤ calculate_alignment_score a b := by
  unfold calculate_alignment_score
  dsimp only
  split
  · exact le_rfl
  · next hne =>
    push_neg at hne
    have hn : 0 < a.length := List.length_pos.2 hne.1
    have hnq : (0 : ℚ) < (a.length : ℚ) := by exact_mod_cast hn
    have hf := greedy_fold_bounds b a (0, 0, []) le_rfl (by simp)
    set F := a.foldl (greedyStep b) (0, 0, []) with hF
    have hcov : (0 : ℚ) ≤ (F.2.1 : ℚ) / (a.length : ℚ) :=
      div_nonneg (Nat.cast_nonneg _) (le_of_lt hnq)
    have havg : (0 : ℚ) ≤ F.1 / (a.length : ℚ) :=
      div_nonneg hf.1 (le_of_lt hnq)
    have hpen : (0 : ℚ) ≤ (if 1/2 ≤ (b.length : ℚ) / (a.length : ℚ)
        ∧ (b.length : ℚ) / (a.length : ℚ) ≤ 2 then (1 : ℚ) else 4/5) := by
      split <;> norm_num
    exact mul_nonneg (by linarith) hpen

theorem calculate_alignment_score_le_one (a b : List String) :
    calculate_alignment_score a b ≤ 1 := by
  unfold calculate_alignment_score
  dsimp only
  split
  · norm_num
  · next hne =>
    push_neg at hne
    have hn : 0 < a.length := List.length_pos.2 hne.1
    have hnq : (0 : ℚ) < (a.length : ℚ) := by exact_mod_cast hn
    have hf := greedy_fold_bounds b a (0, 0, []) le_rfl (by simp)
    set F := a.foldl (greedyStep b) (0, 0, []) with hF
    have hm : (F.2.1 : ℚ) ≤ (a.length : ℚ) := by
      have h0 : F.2.1 ≤ a.length := by simpa using hf.2.2
      exact_mod_cast h0
    have hcov : (F.2.1 : ℚ) / (a.length : ℚ) ≤ 1 := by
      rw [div_le_one hnq]; exact hm
    have havg : F.1 / (a.length : ℚ) ≤ 1 := by
      rw [div_le_one hnq]
      exact le_trans hf.2.1 hm
    have hcov0 : (0 : ℚ) ≤ (F.2.1 : ℚ) / (a.length : ℚ) :=
      div_nonneg (Nat.cast_nonneg _) (le_of_lt hnq)
    have havg0 : (0 : ℚ) ≤ F.1 / (a.length : ℚ) :=
      div_nonneg hf.1 (le_of_lt hnq)
    have hbase : (F.2.1 : ℚ) / (a.length : ℚ) * (1/2) + F.1 / (a.length : ℚ) * (1/2) ≤ 1 := by
      linarith
    have hbase0 : (0 : ℚ) ≤ (F.2.1 : ℚ) / (a.length : ℚ) * (1/2) + F.1 / (a.length : ℚ) * (1/2) := by
      linarith
    split
    · linarith
    · linarith

theorem windowScoreAt_nonneg (sw tw : List String) (c : ℕ × ℕ) :
    0 ≤ windowScoreAt sw tw c :=
  calculate_alignment_score_nonneg _ _

theorem windowScoreAt_le_one (sw tw : List String) (c : ℕ × ℕ) :
    windowScoreAt sw tw c ≤ 1 :=
  calculate_alignment_score_le_one _ _

/-! ## Lemmas: the window search against its §4.5 wording -/

theorem candidateStarts_eq_amended (rs n M : ℕ) :
    candidateStarts rs n M = amendedStartsC4 rs n M := by
  unfold candidateStarts amendedStartsC4 specSearchBound
  simp [Nat.mul_comm]

theorem range'_takeWhile_eq_filter (s M : ℕ) :
    ∀ (cnt a : ℕ), 1 ≤ a →
      (List.range' a cnt).takeWhile (fun w => decide (s + w - 1 < M))
        = (List.range' a cnt).filter (fun w => decide (s + w - 1 < M)) := by
  intro cnt
  induction cnt with
  | zero => intro a _; rfl
  | succ cnt ih =>
    intro a ha
    rw [List.range'_succ]
    by_cases hp : s + a - 1 < M
    · rw [List.takeWhile_cons_of_pos (by simpa using hp),
        List.filter_cons_of_pos (by simpa using hp)]
      rw [ih (a + 1) (by omega)]
    · rw [List.takeWhile_cons_of_neg (by simpa using hp),
        List.filter_cons_of_neg (by simpa using hp)]
      symm
      rw [List.filter_eq_nil_iff]
      intro w hw
      have hmem : a + 1 ≤ w := by
        rcases List.mem_range'.1 hw with ⟨i, _, rfl⟩
        omega
      simp only [decide_eq_true_eq]
      omega

theorem windowSizes_eq_spec (n s M : ℕ) :
    windowSizes n s M = specSizes n s M := by
  unfold windowSizes specSizes
  rw [show n * 2 + 3 = 2 * n + 3 by ring]
  exact range'_takeWhile_eq_filter s M _ _ (le_max_left 1 _)

theorem candidatePairs_eq_spec (n rs M : ℕ) :
    candidatePairs n rs M
      = (amendedStartsC4 rs n M).flatMap
          (fun s => (specSizes n s M).map (fun w => (s, s + w - 1))) := by
  unfold candidatePairs
  rw [candidateStarts_eq_amended]
  congr 1
  funext s
  rw [windowSizes_eq_spec]

/-- The embedded `find_best_window` is exactly the §4.5 search with the
corrected start-range bound `n + 5`. -/
theorem find_best_window_eq_amendedSpec (sw tw : List String)
    (twf : List TranscriptWord) (rs : ℕ) :
    find_best_window sw tw twf rs = bestWindowAmendedC4 sw tw twf rs := by
  unfold find_best_window bestWindowAmendedC4
  by_cases h : rs ≥ tw.length
  · rw [if_pos h, if_pos h]
  · rw [if_neg h, if_neg h]
    unfold bestWindowOfStarts
    dsimp only
    rw [← candidatePairs_eq_spec]
    set g := windowScoreAt sw tw with hg
    set cands := candidatePairs sw.length rs tw.length with hcands
    rcases foldArgmax_characterize g (-1) cands with ⟨heq, hall⟩ |
      ⟨c, l₁, l₂, hsplit, heq, hb, h₁, h₂⟩
    · have hnil : cands = [] := by
        cases hc : cands with
        | nil => rfl
        | cons c cs =>
          exfalso
          have h1 := hall c (by rw [hc]; simp)
          have h2 := windowScoreAt_nonneg sw tw c
          rw [← hg] at h2
          linarith
      rw [heq, hnil]
      simp [firstArgmax]
    · rw [heq, hsplit, firstArgmax_of_split g h₁ h₂]

/-! ## Lemmas: the greedy scorer against its §4.6 wording -/

theorem greedyStep_eq_spec (window : List String) (st : ℚ × ℕ × List ℕ) (sw : String) :
    greedyStep window st sw = specGreedyStep window st sw := by
  unfold greedyStep specGreedyStep greedyPickSpec
  dsimp only
  have hbu : bestUnused sw window st.2.2
      = ((window.enum.filter fun p => decide (p.1 ∉ st.2.2)).foldl
          (fun acc p => if word_similarity sw p.2 > acc.1
            then (word_similarity sw p.2, some p) else acc) (0, none)) := by
    unfold bestUnused
    exact foldl_mem_skip st.2.2 _ window.enum (0, none)
  set avail := window.enum.filter fun p => decide (p.1 ∉ st.2.2) with havail
  rcases foldArgmax_characterize (fun p : ℕ × String => word_similarity sw p.2) 0 avail with
    ⟨heq, hall⟩ | ⟨c, l₁, l₂, hsplit, heq, hb, h₁, h₂⟩
  · rw [hbu, heq]
    cases hc : avail with
    | nil => simp [firstArgmax]
    | cons a rest =>
      have hfa : firstArgmax (fun p : ℕ × String => word_similarity sw p.2) (a :: rest)
          = some a := by
        unfold firstArgmax
        rw [List.find?_cons_of_pos]
        simp only [decide_eq_true_eq]
        intro x hx
        have hx0 := hall x (by rw [hc]; exact hx)
        have ha0 := word_similarity_nonneg sw a.2
        linarith
      rw [hfa]
      simp only [Option.map_some']
      have ha0 : word_similarity sw a.2 ≤ 0 := hall a (by rw [hc]; simp)
      rw [if_neg (by intro hgt; linarith)]
  · rw [hbu, heq, hsplit, firstArgmax_of_split _ h₁ h₂]
    obtain ⟨i, wd⟩ := c
    simp only [Option.map_some']

theorem calculate_alignment_score_eq_spec (a b : List String) :
    calculate_alignment_score a b = windowScoreSpec a b := by
  unfold calculate_alignment_score windowScoreSpec
  dsimp only
  split
  · rfl
  · have hfold : a.foldl (greedyStep b) (0, 0, []) = a.foldl (specGreedyStep b) (0, 0, []) := by
      apply List.foldl_ext
      intro acc sw _
      exact greedyStep_eq_spec b acc sw
    rw [hfold]
    ring

/-! ## Lemmas: properties of a matched window -/

theorem find_best_window_matched {sw tw : List String} {twf : List TranscriptWord} {rs : ℕ}
    {s e : ℕ} (h : (find_best_window sw tw twf rs).widx = some (s, e)) :
    rs ≤ s ∧ s ≤ e ∧ e < tw.length ∧
      3/10 ≤ (find_best_window sw tw twf rs).confidence ∧
      (find_best_window sw tw twf rs).confidence ≤ 1 := by
  unfold find_best_window at h ⊢
  by_cases hrs : rs ≥ tw.length
  · rw [if_pos hrs] at h
    simp at h
  · rw [if_neg hrs] at h ⊢
    dsimp only at h ⊢
    set g := windowScoreAt sw tw with hg
    set cands := candidatePairs sw.length rs tw.length with hcands
    rcases foldArgmax_characterize g (-1) cands with ⟨heq, hall⟩ |
      ⟨c, l₁, l₂, hsplit, heq, hb, h₁, h₂⟩
    · rw [heq] at h
      simp at h
    · rw [heq] at h ⊢
      dsimp only at h ⊢
      by_cases hth : g c < 3/10
      · rw [if_pos hth] at h
        simp at h
      · rw [if_neg hth] at h ⊢
        have hc : c = (s, e) := by
          obtain ⟨c1, c2⟩ := c
          simpa using h
        subst hc
        have hmem : (s, e) ∈ cands := by
          rw [hsplit]
          simp
        have hpair : rs ≤ s ∧ s ≤ e ∧ e < tw.length := by
          rw [hcands] at hmem
          unfold candidatePairs at hmem
          rcases List.mem_flatMap.1 hmem with ⟨st0, hst, hw⟩
          rcases List.mem_map.1 hw with ⟨w, hwmem, hweq⟩
          rw [windowSizes_eq_spec] at hwmem
          unfold specSizes at hwmem
          rcases List.mem_filter.1 hwmem with ⟨hwr, hwlt⟩
          have hw1 : 1 ≤ w := by
            rcases List.mem_range'.1 hwr with ⟨i, _, rfl⟩
            have := le_max_left 1 (sw.length - 2)
            omega
          have hstart : rs ≤ st0 := by
            unfold candidateStarts at hst
            rcases List.mem_range'.1 hst with ⟨i, _, rfl⟩
            omega
          have hse : st0 = s ∧ st0 + w - 1 = e := by
            have h1 := congrArg Prod.fst hweq
            have h2 := congrArg Prod.snd hweq
            exact ⟨h1, h2⟩
          rcases hse with ⟨rfl, rfl⟩
          refine ⟨hstart, by omega, ?_⟩
          simpa using hwlt
        refine ⟨hpair.1, hpair.2.1, hpair.2.2, not_lt.1 hth, ?_⟩
        rw [hg]
        exact windowScoreAt_le_one sw tw (s, e)

/-! ## Lemmas: the sequential alignment loop -/

theorem alignLoop_length (tw : List String) (twf : List TranscriptWord) :
    ∀ (sws : List (List String)) (cur : ℕ) (prevEnd : ℤ),
      (alignLoop tw twf sws cur prevEnd).length = sws.length := by
  intro sws
  induction sws with
  | nil => intro cur prevEnd; rfl
  | cons sw rest ih =>
    intro cur prevEnd
    rw [alignLoop]
    by_cases hsw : sw = []
    · rw [if_pos hsw]
      simp [ih]
    · rw [if_neg hsw]
      dsimp only
      rcases hw : (find_best_window sw tw twf cur).widx with _ | ⟨s, e⟩ <;>
        simp [hw, ih]

theorem alignLoop_widx_ge (tw : List String) (twf : List TranscriptWord) :
    ∀ (sws : List (List String)) (cur : ℕ) (prevEnd : ℤ) (i s e : ℕ),
      ((alignLoop tw twf sws cur prevEnd)[i]?.bind SentAlign.widx) = some (s, e) →
      cur ≤ s ∧ s ≤ e := by
  intro sws
  induction sws with
  | nil => intro cur prevEnd i s e h; simp [alignLoop] at h
  | cons sw rest ih =>
    intro cur prevEnd i s e h
    rw [alignLoop] at h
    by_cases hsw : sw = []
    · rw [if_pos hsw] at h
      match i with
      | 0 => simp [SentAlign.widx] at h
      | i + 1 =>
        simp only [List.getElem?_cons_succ] at h
        exact ih cur 0 i s e h
    · rw [if_neg hsw] at h
      dsimp only at h
      rcases hw : (find_best_window sw tw twf cur).widx with _ | ⟨s0, e0⟩
      · simp only [hw] at h
        match i with
        | 0 => simp [SentAlign.widx] at h
        | i + 1 =>
          simp only [List.getElem?_cons_succ] at h
          exact ih cur prevEnd i s e h
      · simp only [hw] at h
        match i with
        | 0 =>
          simp only [List.getElem?_cons_zero, Option.some_bind, SentAlign.widx,
            Option.some.injEq, Prod.mk.injEq] at h
          obtain ⟨rfl, rfl⟩ := h
          have hm := find_best_window_matched hw
          exact ⟨hm.1, hm.2.1⟩
        | i + 1 =>
          simp only [List.getElem?_cons_succ] at h
          have hrec := ih (e0 + 1) (find_best_window sw tw twf cur).end_ms i s e h
          have hm := find_best_window_matched hw
          exact ⟨by omega, hrec.2⟩

theorem alignLoop_chain (tw : List String) (twf : List TranscriptWord) :
    ∀ (sws : List (List String)) (cur : ℕ) (prevEnd : ℤ) (i j si ei sj ej : ℕ),
      i < j →
      ((alignLoop tw twf sws cur prevEnd)[i]?.bind SentAlign.widx) = some (si, ei) →
      ((alignLoop tw twf sws cur prevEnd)[j]?.bind SentAlign.widx) = some (sj, ej) →
      ei + 1 ≤ sj := by
  intro sws
  induction sws with
  | nil => intro cur prevEnd i j si ei sj ej hij hi hj; simp [alignLoop] at hi
  | cons sw rest ih =>
    intro cur prevEnd i j si ei sj ej hij hi hj
    rw [alignLoop] at hi hj
    by_cases hsw : sw = []
    · rw [if_pos hsw] at hi hj
      match i, j with
      | 0, _ => simp [SentAlign.widx] at hi
      | i + 1, j + 1 =>
        simp only [List.getElem?_cons_succ] at hi hj
        exact ih cur 0 i j si ei sj ej (by omega) hi hj
    · rw [if_neg hsw] at hi hj
      dsimp only at hi hj
      rcases hw : (find_best_window sw tw twf cur).widx with _ | ⟨s0, e0⟩
      · simp only [hw] at hi hj
        match i, j with
        | 0, _ => simp [SentAlign.widx] at hi
        | i + 1, j + 1 =>
          simp only [List.getElem?_cons_succ] at hi hj
          exact ih cur prevEnd i j si ei sj ej (by omega) hi hj
      · simp only [hw] at hi hj
        match i, j with
        | 0, j + 1 =>
          simp only [List.getElem?_cons_zero, Option.some_bind, SentAlign.widx,
            Option.some.injEq, Prod.mk.injEq] at hi
          obtain ⟨rfl, rfl⟩ := hi
          simp only [List.getElem?_cons_succ] at hj
          exact (alignLoop_widx_ge tw twf rest (e0 + 1)
            (find_best_window sw tw twf cur).end_ms j sj ej hj).1
        | i + 1, j + 1 =>
          simp only [List.getElem?_cons_succ] at hi hj
          exact ih (e0 + 1) (find_best_window sw tw twf cur).end_ms i j si ei sj ej
            (by omega) hi hj

theorem alignLoop_confidence (tw : List String) (twf : List TranscriptWord) :
    ∀ (sws : List (List String)) (cur : ℕ) (prevEnd : ℤ) (a : SentAlign),
      a ∈ alignLoop tw twf sws cur prevEnd →
      a.confidence = 0 ∨ (3/10 ≤ a.confidence ∧ a.confidence ≤ 1) := by
  intro sws
  induction sws with
  | nil => intro cur prevEnd a ha; simp [alignLoop] at ha
  | cons sw rest ih =>
    intro cur prevEnd a ha
    rw [alignLoop] at ha
    by_cases hsw : sw = []
    · rw [if_pos hsw] at ha
      rcases List.mem_cons.1 ha with rfl | ha
      · left; rfl
      · exact ih cur 0 a ha
    · rw [if_neg hsw] at ha
      dsimp only at ha
      rcases hw : (find_best_window sw tw twf cur).widx with _ | ⟨s0, e0⟩
      · simp only [hw] at ha
        rcases List.mem_cons.1 ha with rfl | ha
        · left; rfl
        · exact ih cur prevEnd a ha
      · simp only [hw] at ha
        rcases List.mem_cons.1 ha with rfl | ha
        · right
          have hm := find_best_window_matched hw
          exact ⟨hm.2.2.2.1, hm.2.2.2.2⟩
        · exact ih (e0 + 1) (find_best_window sw tw twf cur).end_ms a ha

/-! ## Lemmas: segmentation yields at least one sentence for nonblank text -/

theorem mem_dropWhile_of_mem {α : Type} (p : α → Bool) :
    ∀ (l : List α) (c : α), c ∈ l → p c = false → c ∈ l.dropWhile p := by
  intro l
  induction l with
  | nil => simp
  | cons a rest ih =>
    intro c hc hpc
    by_cases hpa : p a
    · rw [List.dropWhile_cons_of_pos hpa]
      rcases List.mem_cons.1 hc with rfl | hc
      · rw [hpa] at hpc; cases hpc
      · exact ih c hc hpc
    · rw [List.dropWhile_cons_of_neg hpa]
      exact hc

theorem mem_pyStrip {c : Char} (hc : isSpaceChar c = false) {l : List Char} (hm : c ∈ l) :
    c ∈ pyStrip l := by
  unfold pyStrip
  rw [List.mem_reverse]
  apply mem_dropWhile_of_mem _ _ _ _ hc
  rw [List.mem_reverse]
  exact mem_dropWhile_of_mem _ _ _ hm hc

theorem mem_collapseWSAux {c : Char} (hc : isSpaceChar c = false) :
    ∀ (l : List Char) (b : Bool), c ∈ l → c ∈ collapseWSAux b l := by
  intro l
  induction l with
  | nil => intro b hm; cases hm
  | cons a rest ih =>
    intro b hm
    rw [collapseWSAux]
    by_cases ha : isSpaceChar a
    · rw [if_pos ha]
      rcases List.mem_cons.1 hm with rfl | hm
      · rw [ha] at hc; cases hc
      · cases b with
        | true => rw [if_pos rfl]; exact ih true hm
        | false => rw [if_neg (by simp)]; exact List.mem_cons_of_mem _ (ih true hm)
    · rw [if_neg ha]
      rcases List.mem_cons.1 hm with rfl | hm
      · exact List.mem_cons_self _ _
      · exact List.mem_cons_of_mem _ (ih false hm)

theorem mem_collapseWS {c : Char} (hc : isSpaceChar c = false) :
    ∀ l : List Char, c ∈ l → c ∈ collapseWS l :=
  fun l hm => mem_collapseWSAux hc l false hm

theorem mem_nlToSpaceAux {c : Char} (hc : isSpaceChar c = false) :
    ∀ (l : List Char) (b : Bool), c ∈ l → c ∈ nlToSpaceAux b l := by
  have hcn : c ≠ '\n' := by
    intro h
    rw [h] at hc
    cases hc
  intro l
  induction l with
  | nil => intro b hm; cases hm
  | cons a rest ih =>
    intro b hm
    rw [nlToSpaceAux]
    by_cases ha : a = '\n'
    · rw [if_pos ha]
      rcases List.mem_cons.1 hm with rfl | hm
      · exact absurd ha hcn
      · cases b with
        | true => rw [if_pos rfl]; exact ih true hm
        | false => rw [if_neg (by simp)]; exact List.mem_cons_of_mem _ (ih true hm)
    · rw [if_neg ha]
      rcases List.mem_cons.1 hm with rfl | hm
      · exact List.mem_cons_self _ _
      · exact List.mem_cons_of_mem _ (ih false hm)

theorem mem_nlToSpace {c : Char} (hc : isSpaceChar c = false) :
    ∀ l : List Char, c ∈ l → c ∈ nlToSpace l :=
  fun l hm => mem_nlToSpaceAux hc l false hm

theorem pyStrip_ne_nil_elim {l : List Char} (h : pyStrip l ≠ []) :
    ∃ c ∈ pyStrip l, isSpaceChar c = false := by
  unfold pyStrip at h ⊢
  set z := (l.dropWhile isSpaceChar).reverse with hz
  have hz2 : z.dropWhile isSpaceChar ≠ [] := by
    intro hcon
    rw [hcon] at h
    exact h rfl
  refine ⟨(z.dropWhile isSpaceChar).head hz2, ?_, ?_⟩
  · rw [List.mem_reverse]
    exact List.head_mem hz2
  · have := List.head_dropWhile_not isSpaceChar z hz2
    simpa using this

theorem pySplitKeep_flatten (isTerm : Char → Bool) :
    ∀ l : List Char, (pySplitKeep isTerm l).flatten = l := by
  have key : ∀ (n : ℕ) (l : List Char), l.length ≤ n → (pySplitKeep isTerm l).flatten = l := by
    intro n
    induction n with
    | zero =>
      intro l hl
      match l with
      | [] =>
        rw [pySplitKeep]
        simp
    | succ n ih =>
      intro l hl
      rw [pySplitKeep]
      split
      · next h =>
        simp only [List.flatten_cons, List.flatten_nil, List.append_nil]
        conv_rhs => rw [← List.takeWhile_append_dropWhile (fun c => ¬ isTerm c) l]
        rw [h, List.append_nil]
      · next c cs h =>
        simp only [List.flatten_cons]
        have hlen : (cs.dropWhile isTerm).length ≤ n := by
          have h1 : (c :: cs).length ≤ l.length := by
            rw [← h]
            exact (List.dropWhile_sublist _).length_le
          have h2 : (cs.dropWhile isTerm).length ≤ cs.length :=
            (List.dropWhile_sublist _).length_le
          simp at h1
          omega
        rw [ih _ hlen]
        rw [show (c :: cs.takeWhile isTerm) ++ cs.dropWhile isTerm = c :: cs by
          rw [List.cons_append, List.takeWhile_append_dropWhile]]
        conv_rhs => rw [← List.takeWhile_append_dropWhile (fun c => ¬ isTerm c) l]
        rw [h]
  exact fun l => key l.length l le_rfl

theorem cjkLoop_ne_nil (isTerm : Char → Bool) :
    ∀ (parts : List (List Char)) (current : List Char) (c : Char),
      isSpaceChar c = false → c ∈ current ++ parts.flatten →
      cjkLoop isTerm parts current ≠ [] := by
  intro parts
  induction parts with
  | nil =>
    intro current c hc hm
    simp only [List.flatten_nil, List.append_nil] at hm
    rw [cjkLoop]
    rw [if_neg (List.ne_nil_of_mem (mem_pyStrip hc hm))]
    simp
  | cons p rest ih =>
    intro current c hc hm
    match p with
    | [] =>
      rw [cjkLoop]
      simp only [List.flatten_cons, List.nil_append] at hm
      exact ih current c hc hm
    | c0 :: tail =>
      rw [cjkLoop]
      simp only [List.flatten_cons] at hm
      rw [← List.append_assoc] at hm
      by_cases hterm : isTerm c0
      · rw [if_pos hterm]
        by_cases hstrip : pyStrip (current ++ c0 :: tail) = []
        · rw [if_pos hstrip]
          rcases List.mem_append.1 hm with h | h
          · exact absurd hstrip (List.ne_nil_of_mem (mem_pyStrip hc h))
          · exact ih [] c hc (by simpa using h)
        · rw [if_neg hstrip]
          simp
      · rw [if_neg hterm]
        exact ih (current ++ c0 :: tail) c hc hm

theorem westLoop_ne_nil (isTerm : Char → Bool) (abbrevs : List String) :
    ∀ (parts : List (List Char)) (current : List Char) (c : Char),
      isSpaceChar c = false → c ∈ current ++ parts.flatten →
      westLoop isTerm abbrevs parts current ≠ [] := by
  intro parts
  induction parts with
  | nil =>
    intro current c hc hm
    simp only [List.flatten_nil, List.append_nil] at hm
    rw [westLoop]
    rw [if_neg (List.ne_nil_of_mem (mem_pyStrip hc hm))]
    simp
  | cons p rest ih =>
    intro current c hc hm
    match p with
    | [] =>
      rw [westLoop]
      simp only [List.flatten_cons, List.nil_append] at hm
      exact ih current c hc hm
    | c0 :: tail =>
      rw [westLoop]
      simp only [List.flatten_cons] at hm
      rw [← List.append_assoc] at hm
      by_cases hterm : isTerm c0
      · rw [if_pos hterm]
        dsimp only
        split
        · simp
        · exact ih (current ++ c0 :: tail) c hc hm
      · rw [if_neg hterm]
        exact ih (current ++ c0 :: tail) c hc hm

theorem string_ne_empty_of_data {s : String} (h : s.data ≠ []) : s ≠ "" := by
  intro hcon
  exact h (String.data_eq_of_eq hcon)

theorem segment_text_ne_nil {text : String} (lang : String) {c : Char}
    (hc : isSpaceChar c = false) (hm : c ∈ text.data) :
    segment_text text lang ≠ [] := by
  unfold segment_text
  dsimp only
  have hmem : c ∈ collapseWS (pyStrip (nlToSpace text.data)) :=
    mem_collapseWS hc _ (mem_pyStrip hc (mem_nlToSpace hc _ hm))
  rw [if_neg (List.ne_nil_of_mem hmem)]
  have hflat : c ∈ ([] : List Char) ++
      (pySplitKeep (fun d => (sentenceEndings lang).contains d)
        (collapseWS (pyStrip (nlToSpace text.data)))).flatten := by
    rw [List.nil_append, pySplitKeep_flatten]
    exact hmem
  split
  · intro hcon
    rcases List.map_eq_nil_iff.1 hcon with hloop
    exact cjkLoop_ne_nil _ _ [] c hc hflat hloop
  · intro hcon
    rcases List.map_eq_nil_iff.1 hcon with hloop
    exact westLoop_ne_nil _ _ _ [] c hc hflat hloop

theorem segment_text_of_stripped_ne_empty {y : List Char}
    (h : pyStrip y ≠ []) (lang : String) :
    segment_text ⟨pyStrip y⟩ lang ≠ [] := by
  obtain ⟨c, hmem, hc⟩ := pyStrip_ne_nil_elim h
  exact segment_text_ne_nil lang hc hmem

/-! ## Lemmas: the balancing phase of `segment_parallel` -/

theorem mergePassLoop_ne_nil (minw other_len : ℕ) :
    ∀ (f : List String) (prev : ℤ), f ≠ [] →
      mergePassLoop minw other_len f prev ≠ [] := by
  have key : ∀ (m : ℕ) (f : List String) (prev : ℤ),
      2 * f.length + (if (f.length : ℤ) = prev then 0 else 1) ≤ m → f ≠ [] →
      mergePassLoop minw other_len f prev ≠ [] := by
    intro m
    induction m with
    | zero =>
      intro f prev hm hne
      have : 0 < f.length := List.length_pos.2 hne
      omega
    | succ m ih =>
      intro f prev hm hne
      rw [mergePassLoop]
      by_cases hcond : f.length > other_len ∧ f.length > 1
      · rw [if_pos hcond]
        by_cases hprev : (f.length : ℤ) = prev
        · rw [if_pos hprev]
          exact hne
        · rw [if_neg hprev]
          have hlen := merge_short_sentences_length_le minw f
          have hne' := merge_short_sentences_ne_nil minw f hne
          apply ih _ _ _ hne'
          rw [if_neg hprev] at hm
          by_cases heq : (merge_short_sentences minw f).length = f.length
          · rw [heq]
            rw [if_pos (by exact_mod_cast rfl)]
            omega
          · have : (merge_short_sentences minw f).length < f.length := by omega
            split <;> omega
      · rw [if_neg hcond]
        exact hne
  intro f prev hne
  exact key (2 * f.length + 1) f prev (by split <;> omega) hne

theorem force_merge_to_count_spec :
    ∀ (l : List String) (target : ℕ), 1 ≤ target →
      ∃ r, force_merge_to_count l target = some r ∧ r.length = min l.length target := by
  have key : ∀ (n : ℕ) (l : List String), l.length ≤ n → ∀ target, 1 ≤ target →
      ∃ r, force_merge_to_count l target = some r ∧ r.length = min l.length target := by
    intro n
    induction n with
    | zero =>
      intro l hl target ht
      have h0 : l.length = 0 := by omega
      rw [force_merge_to_count, if_pos (by omega)]
      exact ⟨l, rfl, by omega⟩
    | succ n ih =>
      intro l hl target ht
      by_cases hle : l.length ≤ target
      · rw [force_merge_to_count, if_pos hle]
        exact ⟨l, rfl, by omega⟩
      · rw [force_merge_to_count, if_neg hle]
        have h2 : 2 ≤ l.length := by omega
        match l, h2 with
        | x :: y :: rest, _ =>
          have hstep : forceMergeStep (x :: y :: rest)
              = some (mergeAt (x :: y :: rest) (shortestIdx (x :: y :: rest))) := by
            rw [forceMergeStep]
          have hlen := forceMergeStep_some_length hstep
          rw [hstep]
          obtain ⟨r, hr, hrlen⟩ := ih (mergeAt (x :: y :: rest) (shortestIdx (x :: y :: rest)))
            (by simp at hlen hl ⊢; omega) target ht
          refine ⟨r, hr, ?_⟩
          rw [hrlen]
          simp only [List.length_cons] at hle hlen ⊢
          omega
  intro l target ht
  exact key l.length l le_rfl target ht

theorem processLinePair_some (f_lang t_lang : String) (minw : ℕ)
    (acc : List String × List String) (pair : String × String)
    (hacc : acc.1.length = acc.2.length) :
    ∃ acc', processLinePair f_lang t_lang minw acc pair = some acc' ∧
      acc'.1.length = acc'.2.length := by
  unfold processLinePair
  dsimp only
  split
  · exact ⟨acc, rfl, hacc⟩
  · split
    · refine ⟨_, rfl, ?_⟩
      simp [hacc]
    · split
      · refine ⟨_, rfl, ?_⟩
        simp [hacc]
      · next hboth hf ht =>
        have hfne : segment_text ⟨pyStrip pair.1.data⟩ f_lang ≠ [] :=
          segment_text_of_stripped_ne_empty
            (fun hcon => hf (by exact String.ext hcon)) f_lang
        have htne : segment_text ⟨pyStrip pair.2.data⟩ t_lang ≠ [] :=
          segment_text_of_stripped_ne_empty
            (fun hcon => ht (by exact String.ext hcon)) t_lang
        set f0 := segment_text ⟨pyStrip pair.1.data⟩ f_lang with hf0
        set t0 := segment_text ⟨pyStrip pair.2.data⟩ t_lang with ht0
        set f1 := mergePassLoop minw t0.length f0 (-1) with hf1
        set t1 := mergePassLoop minw f1.length t0 (-1) with ht1
        have hf1ne : f1 ≠ [] := mergePassLoop_ne_nil minw t0.length f0 (-1) hfne
        have ht1ne : t1 ≠ [] := mergePassLoop_ne_nil minw f1.length t0 (-1) htne
        have hf1pos : 0 < f1.length := List.length_pos.2 hf1ne
        have ht1pos : 0 < t1.length := List.length_pos.2 ht1ne
        have htarget0 : min f1.length t1.length ≠ 0 := by omega
        rw [if_neg htarget0]
        obtain ⟨f2, hf2, hf2len⟩ :=
          force_merge_to_count_spec f1 (min f1.length t1.length) (by omega)
        obtain ⟨t2, ht2, ht2len⟩ :=
          force_merge_to_count_spec t1 (min f1.length t1.length) (by omega)
        rw [hf2, ht2]
        refine ⟨_, rfl, ?_⟩
        simp only [List.length_append, hacc, hf2len, ht2len]
        omega

theorem segment_parallel_some (ft tt fl tl : String) (minw : ℕ) :
    ∃ r, segment_parallel ft tt fl tl minw = some r ∧ r.1.length = r.2.length := by
  unfold segment_parallel
  dsimp only
  have key : ∀ (pairs : List (String × String)) (acc : List String × List String),
      acc.1.length = acc.2.length →
      ∃ r, pairs.foldlM (processLinePair fl tl minw) acc = some r ∧
        r.1.length = r.2.length := by
    intro pairs
    induction pairs with
    | nil => intro acc hacc; exact ⟨acc, rfl, hacc⟩
    | cons p rest ih =>
      intro acc hacc
      obtain ⟨acc', hacc', heq⟩ := processLinePair_some fl tl minw acc p hacc
      rw [List.foldlM_cons, hacc']
      exact ih acc' heq
  exact key _ ([], []) rfl

/-! ## Lemmas: word similarity contract -/

theorem word_similarity_comm (a b : String) : word_similarity a b = word_similarity b a := by
  unfold word_similarity
  dsimp only
  by_cases h : normalize_for_comparison a = "" ∨ normalize_for_comparison b = ""
  · rw [if_pos h, if_pos (Or.symm h)]
  · rw [if_neg h, if_neg (fun hc => h (Or.symm hc))]
    rw [max_comm (normalize_for_comparison a).length (normalize_for_comparison b).length,
      levenshtein_comm (normalize_for_comparison a).data (normalize_for_comparison b).data]

theorem word_similarity_of_empty {a b : String}
    (h : normalize_for_comparison a = "" ∨ normalize_for_comparison b = "") :
    word_similarity a b = 0 := by
  unfold word_similarity
  rw [if_pos h]

theorem word_similarity_eq_one_iff {a b : String}
    (ha : normalize_for_comparison a ≠ "") (hb : normalize_for_comparison b ≠ "") :
    (word_similarity a b = 1 ↔ normalize_for_comparison a = normalize_for_comparison b) := by
  unfold word_similarity
  rw [if_neg (by rintro (h | h) <;> [exact ha h; exact hb h])]
  dsimp only
  have hlen : (normalize_for_comparison a).length ≠ 0 := by
    intro hcon
    apply ha
    apply String.ext
    exact List.length_eq_zero.1 hcon
  have hml : max (normalize_for_comparison a).length (normalize_for_comparison b).length ≠ 0 := by
    omega
  rw [if_neg hml, Nat.cast_max]
  have hpos : (0 : ℚ) <
      (max (normalize_for_comparison a).length (normalize_for_comparison b).length : ℚ) := by
    exact_mod_cast Nat.pos_of_ne_zero hml
  constructor
  · intro h
    have hdiv : (levenshtein (normalize_for_comparison a).data
        (normalize_for_comparison b).data : ℚ)
        / (max (normalize_for_comparison a).length (normalize_for_comparison b).length : ℚ)
        = 0 := by linarith
    have hzero : levenshtein (normalize_for_comparison a).data
        (normalize_for_comparison b).data = 0 := by
      have := (div_eq_zero_iff.1 hdiv).resolve_right (by linarith)
      exact_mod_cast this
    exact String.ext ((levenshtein_eq_zero_iff _ _).1 hzero)
  · intro h
    have hzero : levenshtein (normalize_for_comparison a).data
        (normalize_for_comparison b).data = 0 :=
      (levenshtein_eq_zero_iff _ _).2 (String.data_eq_of_eq h)
    rw [hzero]
    simp

theorem toLower_wordChar {c : Char} (hw : isWordChar c = true) :
    isWordChar (Char.toLower c) = true ∧ isSpaceChar (Char.toLower c) = false := by
  unfold Char.toLower
  by_cases h : c.toNat ≥ 65 ∧ c.toNat ≤ 90
  · rw [if_pos h]
    obtain ⟨h1, h2⟩ := h
    obtain ⟨n, hn⟩ : ∃ n, c.toNat = n := ⟨_, rfl⟩
    rw [hn] at h1 h2 ⊢
    have hc : c = Char.ofNat n := by rw [← hn, Char.ofNat_toNat]
    interval_cases n <;> decide
  · rw [if_neg h]
    refine ⟨hw, ?_⟩
    unfold isSpaceChar
    simp only [Bool.or_eq_false_iff, beq_eq_false_iff_ne, ne_eq]
    refine ⟨⟨⟨⟨⟨?_, ?_⟩, ?_⟩, ?_⟩, ?_⟩, ?_⟩ <;>
      (intro hcon; subst hcon; exact absurd hw (by decide))

theorem mem_of_mem_collapseWSAux {c : Char} :
    ∀ (l : List Char) (b : Bool), c ∈ collapseWSAux b l → c ∈ l ∨ c = ' ' := by
  intro l
  induction l with
  | nil => intro b hm; rw [collapseWSAux] at hm; cases hm
  | cons a rest ih =>
    intro b hm
    rw [collapseWSAux] at hm
    by_cases ha : isSpaceChar a
    · rw [if_pos ha] at hm
      cases b with
      | true =>
        rw [if_pos rfl] at hm
        rcases ih true hm with h | h
        · exact Or.inl (List.mem_cons_of_mem _ h)
        · exact Or.inr h
      | false =>
        rw [if_neg (by simp)] at hm
        rcases List.mem_cons.1 hm with rfl | hm
        · exact Or.inr rfl
        · rcases ih true hm with h | h
          · exact Or.inl (List.mem_cons_of_mem _ h)
          · exact Or.inr h
    · rw [if_neg ha] at hm
      rcases List.mem_cons.1 hm with rfl | hm
      · exact Or.inl (List.mem_cons_self _ _)
      · rcases ih false hm with h | h
        · exact Or.inl (List.mem_cons_of_mem _ h)
        · exact Or.inr h

theorem mem_of_mem_collapseWS {c : Char} :
    ∀ l : List Char, c ∈ collapseWS l → c ∈ l ∨ c = ' ' :=
  fun l hm => mem_of_mem_collapseWSAux l false hm

theorem mem_of_mem_pyStrip {c : Char} {l : List Char} (hm : c ∈ pyStrip l) : c ∈ l := by
  unfold pyStrip at hm
  rw [List.mem_reverse] at hm
  have h1 := (List.dropWhile_sublist isSpaceChar).subset hm
  rw [List.mem_reverse] at h1
  exact (List.dropWhile_sublist isSpaceChar).subset h1

/-- A non-whitespace character of a normalization result is a word
character (only filter survivors and collapse-introduced spaces occur). -/
theorem mem_norm_wordChar {x : String} {c : Char}
    (hm : c ∈ (normalize_for_comparison x).data) (hc : isSpaceChar c = false) :
    isWordChar c = true := by
  unfold normalize_for_comparison at hm
  dsimp only at hm
  have h1 := mem_of_mem_pyStrip hm
  rcases mem_of_mem_collapseWS _ h1 with h2 | h2
  · have := (List.mem_filter.1 h2).2
    rcases Bool.or_eq_true_iff.1 this with h | h
    · exact h
    · rw [h] at hc; cases hc
  · rw [h2] at hc; cases hc

/-- Normalizing an already-normalized nonblank token leaves it nonblank
(in particular `word_similarity(norm x, norm x)` hits no empty form). -/
theorem normalize_normalize_ne_empty {x : String}
    (h : normalize_for_comparison x ≠ "") :
    normalize_for_comparison (normalize_for_comparison x) ≠ "" := by
  have hdata : pyStrip (collapseWS ((x.data.map Char.toLower).filter
      (fun c => isWordChar c || isSpaceChar c))) ≠ [] := by
    intro hcon
    exact h (String.ext hcon)
  obtain ⟨c, hmem, hc⟩ := pyStrip_ne_nil_elim hdata
  have hmem' : c ∈ (normalize_for_comparison x).data := hmem
  have hw : isWordChar c = true := mem_norm_wordChar hmem' hc
  obtain ⟨hw', hs'⟩ := toLower_wordChar hw
  apply string_ne_empty_of_data
  show pyStrip (collapseWS (((normalize_for_comparison x).data.map Char.toLower).filter
      (fun c => isWordChar c || isSpaceChar c))) ≠ []
  apply List.ne_nil_of_mem (a := Char.toLower c)
  apply mem_pyStrip hs'
  apply mem_collapseWS hs'
  apply List.mem_filter.2
  exact ⟨List.mem_map_of_mem Char.toLower hmem', by rw [hw']; rfl⟩

theorem word_similarity_norm_self {x : String} (h : normalize_for_comparison x ≠ "") :
    word_similarity (normalize_for_comparison x) (normalize_for_comparison x) = 1 := by
  have hne := normalize_normalize_ne_empty h
  exact (word_similarity_eq_one_iff hne hne).2 rfl

/-! ## Lemmas: output shape of the aligner -/

theorem align_length (sentences : List String) (tws : List TranscriptWord) :
    (align_transcript_to_text sentences tws).length = sentences.length := by
  unfold align_transcript_to_text align_full
  by_cases htw : tws = []
  · simp [htw]
  · rw [if_neg htw]
    by_cases hs : sentences = []
    · simp [hs]
    · rw [if_neg hs]
      dsimp only
      rw [List.length_map, alignLoop_length, List.length_map]

theorem align_empty_transcript (sentences : List String) :
    align_transcript_to_text sentences [] = sentences.map (fun _ => ⟨0, 0, 0⟩) := by
  unfold align_transcript_to_text align_full
  rw [if_pos rfl]
  simp

theorem align_empty_sentences (tws : List TranscriptWord) :
    align_transcript_to_text [] tws = [] := by
  unfold align_transcript_to_text align_full
  by_cases htw : tws = [] <;> simp [htw]

/-! ## The claims -/

-- Rational arithmetic must evaluate inside `decide` for the concrete
-- witnesses and counterexamples below.
attribute [local semireducible] Rat.add Rat.sub Rat.mul Rat.inv

/-- C1: `align_transcript_to_text(sentences, transcript_words)` returns one
timing record per input sentence; in particular an empty transcript yields
one `{start_ms: 0, end_ms: 0, confidence: 0.0}` record per sentence, and an
empty sentence list yields an empty result. -/
theorem C1_align_output_length :
    (∀ (sentences : List String) (tws : List TranscriptWord),
      (align_transcript_to_text sentences tws).length = sentences.length)
    ∧ (∀ sentences : List String,
      align_transcript_to_text sentences [] = sentences.map (fun _ => ⟨0, 0, 0⟩))
    ∧ (∀ tws : List TranscriptWord, align_transcript_to_text [] tws = []) :=
  ⟨align_length, align_empty_transcript, align_empty_sentences⟩

/-- C3: within one alignment call, for sentences `i < j` that both produce a
MATCHED window, sentence `j`'s window starts at least one past sentence
`i`'s window end: no transcript word is in two matched windows and the
cursor never moves backward. -/
theorem C3_cursor_monotonicity (sentences : List String) (tws : List TranscriptWord)
    (i j si ei sj ej : ℕ) (hij : i < j)
    (hi : ((align_full sentences tws)[i]?.bind SentAlign.widx) = some (si, ei))
    (hj : ((align_full sentences tws)[j]?.bind SentAlign.widx) = some (sj, ej)) :
    ei + 1 ≤ sj := by
  unfold align_full at hi hj
  by_cases htw : tws = []
  · rw [if_pos htw] at hi
    rw [List.getElem?_map] at hi
    cases hsi : sentences[i]? <;> rw [hsi] at hi <;> simp [SentAlign.widx] at hi
  · rw [if_neg htw] at hi hj
    by_cases hs : sentences = []
    · rw [if_pos hs] at hi
      simp at hi
    · rw [if_neg hs] at hi hj
      exact alignLoop_chain _ _ _ 0 0 i j si ei sj ej hij hi hj

/-- Witness for C3 at a concrete two-sentence alignment. -/
theorem C3_cursor_monotonicity_witness : 0 + 1 ≤ 1 :=
  C3_cursor_monotonicity ["a", "b"] [⟨"a", 0, 1⟩, ⟨"b", 1, 2⟩] 0 1 0 0 1 1
    (by decide) (by decide) (by decide)

/-- C6: every alignment failure mode is data, never an exception (the
embedding is a total function): an empty transcript yields all-zero
records; a failed window search emits `start_ms = end_ms = previous
end_ms` (0 for the first sentence) with confidence 0.0 and an unchanged
cursor; a sentence with no tokens emits `{0,0,0.0}` without moving the
cursor; and a cursor past the transcript end is one of the window-search
failure conditions. -/
theorem C6_failure_modes :
    (∀ sentences : List String,
      align_transcript_to_text sentences [] = sentences.map (fun _ => ⟨0, 0, 0⟩))
    ∧ (∀ (tw : List String) (twf : List TranscriptWord) (rest : List (List String))
        (cur : ℕ) (prevEnd : ℤ) (sw : List String), sw ≠ [] →
        (find_best_window sw tw twf cur).widx = none →
        alignLoop tw twf (sw :: rest) cur prevEnd
          = ⟨prevEnd, prevEnd, 0, none⟩ :: alignLoop tw twf rest cur prevEnd)
    ∧ (∀ (tw : List String) (twf : List TranscriptWord) (rest : List (List String))
        (cur : ℕ) (prevEnd : ℤ),
        alignLoop tw twf ([] :: rest) cur prevEnd
          = ⟨0, 0, 0, none⟩ :: alignLoop tw twf rest cur 0)
    ∧ (∀ (sw tw : List String) (twf : List TranscriptWord) (cur : ℕ),
        cur ≥ tw.length → (find_best_window sw tw twf cur).widx = none) := by
  refine ⟨align_empty_transcript, ?_, ?_, ?_⟩
  · intro tw twf rest cur prevEnd sw hsw hfail
    rw [alignLoop, if_neg hsw]
    dsimp only
    rw [hfail]
  · intro tw twf rest cur prevEnd
    rw [alignLoop, if_pos rfl]
  · intro sw tw twf cur hcur
    unfold find_best_window
    rw [if_pos hcur]

/-- Witness for C6 at concrete failing inputs. -/
theorem C6_failure_modes_witness :
    align_transcript_to_text ["hi"] [] = [⟨0, 0, 0⟩]
    ∧ (find_best_window ["hi"] [] [] 0).widx = none :=
  ⟨C6_failure_modes.1 ["hi"], C6_failure_modes.2.2.2 ["hi"] [] [] 0 (by decide)⟩

/-- C10: every confidence emitted by `align_transcript_to_text` is either
exactly 0.0 or lies in [0.3, 1.0]. -/
theorem C10_confidence_range (sentences : List String) (tws : List TranscriptWord)
    (t : Timing) (ht : t ∈ align_transcript_to_text sentences tws) :
    t.confidence = 0 ∨ (3/10 ≤ t.confidence ∧ t.confidence ≤ 1) := by
  unfold align_transcript_to_text at ht
  rcases List.mem_map.1 ht with ⟨a, ha, rfl⟩
  unfold align_full at ha
  by_cases htw : tws = []
  · rw [if_pos htw] at ha
    rcases List.mem_map.1 ha with ⟨_, _, rfl⟩
    left; rfl
  · rw [if_neg htw] at ha
    by_cases hs : sentences = []
    · rw [if_pos hs] at ha
      cases ha
    · rw [if_neg hs] at ha
      exact alignLoop_confidence _ _ _ 0 0 a ha

/-- Witness for C10 at a concrete aligned sentence. -/
theorem C10_confidence_range_witness :
    (1 : ℚ) = 0 ∨ ((3 : ℚ)/10 ≤ 1 ∧ (1 : ℚ) ≤ 1) :=
  C10_confidence_range ["a"] [⟨"a", 0, 1⟩] ⟨0, 1000, 1⟩ (by decide)

/-- C4 (amended): `find_best_window` is exactly the §4.5 search with
candidate starts `rangeStart .. min(rangeStart + n + 5, searchBound) - 1`
(not `n + 4` as the claim states), `searchBound = min(rangeStart + 3n + 10, M)`,
window lengths `max(1, n-2) .. 2n+2` stopping once the end index reaches `M`,
the maximum tracked with ties broken by the first window in
ascending-start-then-ascending-length order, failure below 0.3, and the
none/failure result when `rangeStart ≥ M`. -/
theorem C4_window_search_amended (sent_words trans_words : List String)
    (transcript_words : List TranscriptWord) (rangeStart : ℕ) :
    find_best_window sent_words trans_words transcript_words rangeStart
      = bestWindowAmendedC4 sent_words trans_words transcript_words rangeStart :=
  find_best_window_eq_amendedSpec sent_words trans_words transcript_words rangeStart

set_option maxRecDepth 200000 in
/-- C4 counterexample: with the claim's `n + 4` start bound the search never
tries start position `rangeStart + n + 4`; on this transcript the code finds
the window (6, 9) with confidence 1 while the claim's enumeration returns
(4, 9) with confidence 0.8. -/
theorem C4_counterexample :
    find_best_window ["aa", "bb"] ["q", "q", "q", "q", "q", "q", "aa", "q", "q", "bb"]
        [⟨"q", 0, 1⟩, ⟨"q", 1, 2⟩, ⟨"q", 2, 3⟩, ⟨"q", 3, 4⟩, ⟨"q", 4, 5⟩,
          ⟨"q", 5, 6⟩, ⟨"aa", 6, 7⟩, ⟨"q", 7, 8⟩, ⟨"q", 8, 9⟩, ⟨"bb", 9, 10⟩] 0
      ≠ bestWindowClaimC4 ["aa", "bb"] ["q", "q", "q", "q", "q", "q", "aa", "q", "q", "bb"]
        [⟨"q", 0, 1⟩, ⟨"q", 1, 2⟩, ⟨"q", 2, 3⟩, ⟨"q", 3, 4⟩, ⟨"q", 4, 5⟩,
          ⟨"q", 5, 6⟩, ⟨"aa", 6, 7⟩, ⟨"q", 7, 8⟩, ⟨"q", 8, 9⟩, ⟨"bb", 9, 10⟩] 0 := by
  decide

/-- C5: `calculate_alignment_score` is exactly the §4.6 window score: greedy
one-to-one matching with no window token used twice, a token counted as
matched (its similarity accumulated) only when the best similarity exceeds
0.5, result `(0.5*coverage + 0.5*avgSimilarity) * sizePenalty` with
`sizePenalty = 1.0` iff `0.5 ≤ windowLength/n ≤ 2.0` else 0.8, and 0.0 for
an empty token list or window. -/
theorem C5_window_score_spec (sent_words window : List String) :
    calculate_alignment_score sent_words window = windowScoreSpec sent_words window :=
  calculate_alignment_score_eq_spec sent_words window

/-- C2: `segment_parallel` always returns (never raises), and the two
returned lists have equal length. -/
theorem C2_segment_parallel_equal_lengths (foreign_text translation_text
    foreign_lang translation_lang : String) (min_words : ℕ) :
    ∃ a b, segment_parallel foreign_text translation_text
        foreign_lang translation_lang min_words = some (a, b)
      ∧ a.length = b.length := by
  obtain ⟨r, hr, hlen⟩ :=
    segment_parallel_some foreign_text translation_text foreign_lang translation_lang min_words
  exact ⟨r.1, r.2, by rw [hr], hlen⟩

/-- C8: the count-balancing phase terminates and never raises: the merge
pass loop returns at its fixpoint when a pass changed nothing,
`_force_merge_to_count` reaches exactly the target (shrinking by one merge
per iteration, total functions in this embedding), and `segment_parallel`
never takes its exception path. -/
theorem C8_balancing_terminates :
    (∀ (l : List String) (target : ℕ), 1 ≤ target →
      ∃ r, force_merge_to_count l target = some r ∧ r.length = min l.length target)
    ∧ (∀ (minw other_len : ℕ) (f : List String) (prev : ℤ),
        (f.length : ℤ) = prev → mergePassLoop minw other_len f prev = f)
    ∧ (∀ ft tt fl tl : String, ∀ mw : ℕ, (segment_parallel ft tt fl tl mw).isSome) := by
  refine ⟨fun l target ht => force_merge_to_count_spec l target ht, ?_, ?_⟩
  · intro minw other_len f prev hprev
    rw [mergePassLoop]
    by_cases hcond : f.length > other_len ∧ f.length > 1
    · rw [if_pos hcond, if_pos hprev]
    · rw [if_neg hcond]
  · intro ft tt fl tl mw
    obtain ⟨r, hr, _⟩ := segment_parallel_some ft tt fl tl mw
    rw [hr]
    rfl

/-- Witness for C8 at concrete inputs. -/
theorem C8_balancing_terminates_witness :
    (1 ≤ 1 ∧ ∃ r, force_merge_to_count ["ab", "c", "def"] 1 = some r
        ∧ r.length = min (["ab", "c", "def"].length) 1)
    ∧ ((["a", "b"].length : ℤ) = 2 ∧ mergePassLoop 2 0 ["a", "b"] 2 = ["a", "b"]) :=
  ⟨⟨le_rfl, C8_balancing_terminates.1 ["ab", "c", "def"] 1 le_rfl⟩,
   ⟨by decide, C8_balancing_terminates.2.1 2 0 ["a", "b"] 2 (by decide)⟩⟩

/-- C9 (amended): `word_similarity` is symmetric, 0.0 when either normalized
form is empty, 1.0 exactly when two non-empty normalized forms are
identical, `word_similarity(norm x, norm x) = 1.0` for every token x whose
normalized form is non-empty (not every non-empty token: a pure-punctuation
token normalizes to the empty string), and `word_similarity("cat","dog") < 0.5`. -/
theorem C9_word_similarity_contract :
    (∀ a b : String, word_similarity a b = word_similarity b a)
    ∧ (∀ a b : String,
        normalize_for_comparison a = "" ∨ normalize_for_comparison b = "" →
        word_similarity a b = 0)
    ∧ (∀ a b : String, normalize_for_comparison a ≠ "" → normalize_for_comparison b ≠ "" →
        (word_similarity a b = 1 ↔ normalize_for_comparison a = normalize_for_comparison b))
    ∧ (∀ x : String, normalize_for_comparison x ≠ "" →
        word_similarity (normalize_for_comparison x) (normalize_for_comparison x) = 1)
    ∧ word_similarity "cat" "dog" < 1/2 :=
  ⟨word_similarity_comm,
   fun _ _ h => word_similarity_of_empty h,
   fun _ _ ha hb => word_similarity_eq_one_iff ha hb,
   fun _ h => word_similarity_norm_self h,
   by decide⟩

/-- C9 counterexample: `"!"` is a non-empty token, yet
`word_similarity(norm("!"), norm("!"))` is 0.0, not 1.0, because its
normalized form is empty. -/
theorem C9_counterexample :
    ("!" : String) ≠ ""
    ∧ word_similarity (normalize_for_comparison "!") (normalize_for_comparison "!") ≠ 1 := by
  decide

/-- Witness for C9 at a concrete token with non-empty normalized form. -/
theorem C9_word_similarity_witness :
    normalize_for_comparison "hi" ≠ ""
    ∧ word_similarity (normalize_for_comparison "hi") (normalize_for_comparison "hi") = 1 :=
  ⟨by decide, C9_word_similarity_contract.2.2.2.1 "hi" (by decide)⟩

/-- The §3-violating transcript used for C7: its only word has end < start. -/
theorem badTranscript_not_valid : ¬ transcriptValid [⟨"a", 5, 1⟩] := by
  intro h
  have := h.1 ⟨"a", 5, 1⟩ (by simp)
  norm_num at this

/-- C7 (amended): the alignment core never raises at all — it has no
validation: even on a transcript violating the §3 preconditions (a word
with end < start, or unsorted start times) it returns one ordinary timing
per sentence instead of signalling an error. -/
theorem C7_no_validation_error (sentences : List String) (tws : List TranscriptWord)
    (hbad : ¬ transcriptValid tws) :
    (align_transcript_to_text sentences tws).length = sentences.length :=
  align_length sentences tws

/-- C7 counterexample: on a transcript whose word has end < start the core
returns a normal timing list (with end_ms before start_ms) rather than
raising any validation error. -/
theorem C7_counterexample :
    ¬ transcriptValid [⟨"a", 5, 1⟩]
    ∧ align_transcript_to_text ["a"] [⟨"a", 5, 1⟩] = [⟨5000, 1000, 1⟩] :=
  ⟨badTranscript_not_valid, by decide⟩

/-- Witness for C7 at the concrete invalid transcript. -/
theorem C7_no_validation_error_witness :
    ¬ transcriptValid [⟨"a", 5, 1⟩]
    ∧ (align_transcript_to_text ["x", "y"] [⟨"a", 5, 1⟩]).length = 2 :=
  ⟨badTranscript_not_valid,
   C7_no_validation_error ["x", "y"] [⟨"a", 5, 1⟩] badTranscript_not_valid⟩

end ReadRepeat
